import Mathlib

/-!
Verification of the cache / request-guard core of ddlarr-suite
(src/darkiworld/cache.py), shallowly embedded in Lean 4.

Strings are modelled as `List Char`.  Python `str.lower()` is modelled on the
ASCII range (the regex patterns in the source are ASCII literals and the input
is lowercased before the patterns run, so this is the observable fragment).
Python `time.time()` values are modelled as integers: every comparison in the
source is an order comparison, never arithmetic on fractional parts.
-/

namespace Ddlarr

/-- Python whitespace characters recognised by `str.strip()` and the regex
class backslash-s, restricted to ASCII. -/
def isSpc (c : Char) : Bool :=
  c == ' ' || c == '\t' || c == '\n' || c == '\r' || c == Char.ofNat 11 || c == Char.ofNat 12

/-- ASCII digit test, the model of the regex class backslash-d. -/
def isDig (c : Char) : Bool :=
  '0' ≤ c && c ≤ '9'

/-- The uppercase-to-lowercase table for the ASCII letters. -/
def lcMap : List (Char × Char) :=
  [('A','a'), ('B','b'), ('C','c'), ('D','d'), ('E','e'), ('F','f'),
   ('G','g'), ('H','h'), ('I','i'), ('J','j'), ('K','k'), ('L','l'),
   ('M','m'), ('N','n'), ('O','o'), ('P','p'), ('Q','q'), ('R','r'),
   ('S','s'), ('T','t'), ('U','u'), ('V','v'), ('W','w'), ('X','x'),
   ('Y','y'), ('Z','z')]

/-- ASCII lowercasing of one character, the model of Python `str.lower()`
restricted to the ASCII letters. -/
def lowerChar (c : Char) : Char :=
  match lcMap.find? (fun p => p.1 == c) with
  | some p => p.2
  | none => c

/-- `str.lower()` on a whole string. -/
def lower (l : List Char) : List Char := l.map lowerChar

/-- Drop leading whitespace (left half of `str.strip()`). -/
def stripL (l : List Char) : List Char := l.dropWhile isSpc

/-- Drop trailing whitespace (right half of `str.strip()`). -/
def stripR : List Char → List Char
  | [] => []
  | c :: r =>
    let rest := stripR r
    if rest = [] then (if isSpc c then [] else [c]) else c :: rest

/-- Python `str.strip()`. -/
def strip (l : List Char) : List Char := stripR (stripL l)

/-- One pass of `re.sub` with pattern backslash-s-plus and replacement a single
space: every maximal whitespace run becomes one space.  The boolean argument
records whether the previous character belonged to a whitespace run. -/
def collapseAux : Bool → List Char → List Char
  | _, [] => []
  | prevWs, c :: r =>
    if isSpc c then
      if prevWs then collapseAux true r else ' ' :: collapseAux true r
    else c :: collapseAux false r

/-- Whitespace-run collapsing, `re.sub(backslash-s-plus, one space, s)`. -/
def collapse (l : List Char) : List Char := collapseAux false l

/-- Count the longest prefix satisfying `p` and return it with the rest. -/
def spanLen (p : Char → Bool) : List Char → Nat × List Char
  | [] => (0, [])
  | c :: r =>
    if p c then
      let (n, rest) := spanLen p r
      (n + 1, rest)
    else (0, c :: r)

/-- Match a literal character sequence at the head of the input, returning the
rest on success. -/
def dropLit : List Char → List Char → Option (List Char)
  | [], l => some l
  | c :: cs, x :: l => if x = c then dropLit cs l else none
  | _ :: _, [] => none

/-- Forward regex tokens for the unanchored season patterns of
`normalize_query`.  `wsP` is backslash-s-plus, `wsS` is backslash-s-star,
`digP` is backslash-d-plus, `lit` a literal, `alts` a first-match alternation
of literals. -/
inductive FTok where
  | wsP : FTok
  | wsS : FTok
  | digP : FTok
  | lit : List Char → FTok
  | alts : List (List Char) → FTok

/-- Try the alternation branches in order; return the rest and the consumed
length of the first branch that matches. -/
def tryAlts : List (List Char) → List Char → Option (Nat × List Char)
  | [], _ => none
  | cs :: rest, l =>
    match dropLit cs l with
    | some r => some (cs.length, r)
    | none => tryAlts rest l

/-- Match a forward token sequence at the head of the input, with
maximal-munch semantics (faithful to the source's patterns, where every
greedy class is followed by a character it cannot contain).  Returns the
number of characters consumed. -/
def matchFwd : List FTok → List Char → Option Nat
  | [], _ => some 0
  | FTok.wsP :: ts, l =>
    let (n, rest) := spanLen isSpc l
    if n = 0 then none else (matchFwd ts rest).map (· + n)
  | FTok.wsS :: ts, l =>
    let (n, rest) := spanLen isSpc l
    (matchFwd ts rest).map (· + n)
  | FTok.digP :: ts, l =>
    let (n, rest) := spanLen isDig l
    if n = 0 then none else (matchFwd ts rest).map (· + n)
  | FTok.lit cs :: ts, l =>
    match dropLit cs l with
    | some rest => (matchFwd ts rest).map (· + cs.length)
    | none => none
  | FTok.alts choices :: ts, l =>
    match tryAlts choices l with
    | some (k, rest) => (matchFwd ts rest).map (· + k)
    | none => none

/-- Pattern `saison` preceded by whitespace and followed by a number. -/
def saisonToks : List FTok :=
  [FTok.wsP, FTok.lit ['s','a','i','s','o','n'], FTok.wsS, FTok.digP]

/-- Pattern `season` preceded by whitespace and followed by a number. -/
def seasonToks : List FTok :=
  [FTok.wsP, FTok.lit ['s','e','a','s','o','n'], FTok.wsS, FTok.digP]

/-- Pattern `sN` preceded by whitespace. -/
def sNumToks : List FTok :=
  [FTok.wsP, FTok.lit ['s'], FTok.digP]

/-- Pattern `Nst/Nnd/Nrd/Nth season` preceded by whitespace. -/
def ordinalToks : List FTok :=
  [FTok.wsP, FTok.digP, FTok.alts [['s','t'], ['n','d'], ['r','d'], ['t','h']],
   FTok.wsP, FTok.lit ['s','e','a','s','o','n']]

/-- One step list for `re.sub(pat, empty, s)` with an unanchored pattern:
scan left to right, delete every match, resume after each deletion.  The
fuel argument dominates the number of scanning steps. -/
def subAllF (m : List Char → Option Nat) : Nat → List Char → List Char
  | 0, l => l
  | _ + 1, [] => []
  | f + 1, c :: cs =>
    match m (c :: cs) with
    | some (k + 1) => subAllF m f (cs.drop k)
    | _ => c :: subAllF m f cs

/-- `re.sub(pat, empty, s)` for an unanchored pattern given by matcher `m`.
A fuel of `l.length` always suffices: every step either consumes one
character or deletes at least one. -/
def subAll (m : List Char → Option Nat) (l : List Char) : List Char :=
  subAllF m l.length l

/-- Reversed tokens for the end-anchored patterns: the input is matched from
its end.  `rlit` is a literal character, `rdig` a digit, `rwsP` a nonempty
whitespace run (consumed maximally, which is what leftmost-greedy matching
does for a run immediately preceding the literal suffix). -/
inductive RTok where
  | rlit : Char → RTok
  | rdig : RTok
  | rwsP : RTok

/-- Match reversed tokens against a reversed input, returning the unmatched
reversed remainder. -/
def matchRev : List RTok → List Char → Option (List Char)
  | [], r => some r
  | RTok.rlit c :: ts, x :: r => if x = c then matchRev ts r else none
  | RTok.rdig :: ts, x :: r => if isDig x then matchRev ts r else none
  | RTok.rwsP :: ts, x :: r =>
    if isSpc x then matchRev ts (r.dropWhile isSpc) else none
  | _ :: _, [] => none

/-- `re.sub` for an end-anchored pattern: delete the suffix match if there is
one, otherwise return the input unchanged. -/
def dropEnd (ts : List RTok) (l : List Char) : List Char :=
  match matchRev ts l.reverse with
  | some r => r.reverse
  | none => l

/-- Reversed token list for a plain word suffix preceded by whitespace. -/
def wordEnd (w : List Char) : List RTok :=
  w.reverse.map RTok.rlit ++ [RTok.rwsP]

/-- Reversed token list for `the series` at the end. -/
def theSeriesEnd : List RTok :=
  (['s','e','r','i','e','s'].reverse.map RTok.rlit) ++ [RTok.rwsP] ++
  (['t','h','e'].reverse.map RTok.rlit) ++ [RTok.rwsP]

/-- Reversed token list for a four-digit year at the end, optionally wrapped
in the given opening and closing characters. -/
def yearEnd (wrap : Option (Char × Char)) : List RTok :=
  match wrap with
  | none => [RTok.rdig, RTok.rdig, RTok.rdig, RTok.rdig, RTok.rwsP]
  | some (o, c) =>
    [RTok.rlit c, RTok.rdig, RTok.rdig, RTok.rdig, RTok.rdig, RTok.rlit o, RTok.rwsP]

/-- The canonical lowercase tv suffix, a representative of the recognized
trailing patterns. -/
def tvSuffix : List Char := [' ', 't', 'v']

/-- The pattern cascade of `normalize_query`, applied in source order:
four unanchored season patterns, eleven end-anchored media-type suffixes,
three end-anchored year patterns. -/
def stripPats (l : List Char) : List Char :=
  let l := subAll (matchFwd saisonToks) l
  let l := subAll (matchFwd seasonToks) l
  let l := subAll (matchFwd sNumToks) l
  let l := subAll (matchFwd ordinalToks) l
  let l := dropEnd (wordEnd ['t','v']) l
  let l := dropEnd (wordEnd ['(','t','v',')']) l
  let l := dropEnd (wordEnd ['[','t','v',']']) l
  let l := dropEnd (wordEnd ['s','e','r','i','e']) l
  let l := dropEnd (wordEnd ['s','e','r','i','e','s']) l
  let l := dropEnd theSeriesEnd l
  let l := dropEnd (wordEnd ['a','n','i','m','e']) l
  let l := dropEnd (wordEnd ['v','o','s','t','f','r']) l
  let l := dropEnd (wordEnd ['v','f']) l
  let l := dropEnd (wordEnd ['f','r','e','n','c','h']) l
  let l := dropEnd (wordEnd ['m','u','l','t','i']) l
  let l := dropEnd (yearEnd (some ('(', ')'))) l
  let l := dropEnd (yearEnd (some ('[', ']'))) l
  dropEnd (yearEnd none) l

/-- The eighteen stages of the pattern cascade as a list, in application
order; `stripPats` is their left-to-right composition. -/
def stageList : List (List Char → List Char) :=
  [subAll (matchFwd saisonToks), subAll (matchFwd seasonToks),
   subAll (matchFwd sNumToks), subAll (matchFwd ordinalToks),
   dropEnd (wordEnd ['t','v']), dropEnd (wordEnd ['(','t','v',')']),
   dropEnd (wordEnd ['[','t','v',']']), dropEnd (wordEnd ['s','e','r','i','e']),
   dropEnd (wordEnd ['s','e','r','i','e','s']), dropEnd theSeriesEnd,
   dropEnd (wordEnd ['a','n','i','m','e']), dropEnd (wordEnd ['v','o','s','t','f','r']),
   dropEnd (wordEnd ['v','f']), dropEnd (wordEnd ['f','r','e','n','c','h']),
   dropEnd (wordEnd ['m','u','l','t','i']), dropEnd (yearEnd (some ('(', ')'))),
   dropEnd (yearEnd (some ('[', ']'))), dropEnd (yearEnd none)]

/-- `normalize_query(query, season)` from src/darkiworld/cache.py: empty
input is returned as is; otherwise strip, lowercase, run the pattern
cascade, collapse whitespace runs and strip again.  The `season` parameter
is accepted but never read by the source body. -/
def normalize_query (query : List Char) (season : Option Int) : List Char :=
  if query = [] then []
  else strip (collapse (stripPats (lower (strip query))))

/-- Decimal digit character for a value below ten. -/
def digitChar (n : Nat) : Char :=
  match n with
  | 0 => '0' | 1 => '1' | 2 => '2' | 3 => '3' | 4 => '4'
  | 5 => '5' | 6 => '6' | 7 => '7' | 8 => '8' | _ => '9'

/-- Decimal digits of a natural number, most significant first; the fuel
dominates the digit count. -/
def digitsF : Nat → Nat → List Char
  | 0, _ => []
  | f + 1, n =>
    if n < 10 then [digitChar n]
    else digitsF f (n / 10) ++ [digitChar (n % 10)]

/-- Decimal digits of a natural number (`str(n)` for nonnegative `n`). -/
def natStr (n : Nat) : List Char := digitsF (n + 1) n

/-- Python `str(i)` for an integer. -/
def intStr (i : Int) : List Char :=
  if i < 0 then '-' :: natStr i.natAbs else natStr i.natAbs

/-- `"|".join(parts)`. -/
def joinBar : List (List Char) → List Char
  | [] => []
  | [x] => x
  | x :: xs => x ++ '|' :: joinBar xs

/-- The optional season/episode components appended to the key parts list. -/
def optPart (o : Option Int) : List (List Char) :=
  match o with
  | none => []
  | some k => [intStr k]

/-- `generate_cache_key(query, media_type, season, episode)` from
src/darkiworld/cache.py: join the normalized query, the media type and the
present optional numbers with a bar. -/
def generate_cache_key (query mediaType : List Char)
    (season episode : Option Int) : List Char :=
  joinBar (normalize_query query season :: mediaType :: (optPart season ++ optPart episode))

/-!
TTLCache.  The Python dict is modelled as an association list with at most
one entry per key (dict semantics); assignment to an existing key keeps its
position, a new key is appended.  A Python value (`Any`, where `None` doubles
as the absent sentinel returned by `get`) is modelled as `Option β`: `none`
is Python `None`, `some b` any other object.  Timestamps are integers.
-/

/-- A cache key. -/
abbrev CKey := List Char

/-- The entry table of one `TTLCache` instance. -/
abbrev Entries (β : Type) := List (CKey × (Option β × Int))

/-- Dict lookup: the value-and-expiry pair stored under `k`, if any. -/
def lookupK {β : Type} (k : CKey) : Entries β → Option (Option β × Int)
  | [] => none
  | e :: es => if e.1 = k then some e.2 else lookupK k es

/-- Dict deletion of key `k` (`del self._cache[key]`). -/
def eraseK {β : Type} (k : CKey) : Entries β → Entries β
  | [] => []
  | e :: es => if e.1 = k then es else e :: eraseK k es

/-- Dict assignment `self._cache[key] = p`: replace in place, or append. -/
def setK {β : Type} (k : CKey) (p : Option β × Int) : Entries β → Entries β
  | [] => [(k, p)]
  | e :: es => if e.1 = k then (k, p) :: es else e :: setK k p es

/-- `TTLCache.get(key)` at time `now`: the returned value (Python `None`
modelled as `none`) together with the table afterwards.  A hit needs
`now < expires_at` strictly, as in the source; an expired entry is deleted. -/
def cache_get {β : Type} (now : Int) (k : CKey) (es : Entries β) :
    Option β × Entries β :=
  match lookupK k es with
  | some (v, expiresAt) =>
    if now < expiresAt then (v, es) else (none, eraseK k es)
  | none => (none, es)

/-- `TTLCache.set(key, value, ttl)` at time `now` for a cache whose default
TTL is `dflt`: store `(value, now + ttl)`, the default applying when no TTL
is given. -/
def cache_set {β : Type} (now : Int) (k : CKey) (v : Option β)
    (ttl : Option Int) (dflt : Int) (es : Entries β) : Entries β :=
  setK k (v, now + ttl.getD dflt) es

/-- `TTLCache.clear_expired()` at time `now`: keep exactly the entries with
`now < expires_at` (the source deletes those with `now >= exp`). -/
def clear_expired {β : Type} (now : Int) (es : Entries β) : Entries β :=
  es.filter (fun e => now < e.2.2)

/-- `TTLCache.size()`. -/
def cache_size {β : Type} (es : Entries β) : Nat := es.length

/-!
RequestGuard.  The Python set of active keys is modelled as a duplicate-free
list; `acquire` returns the boolean result together with the new state.
-/

/-- The active-request set of one `RequestGuard` instance. -/
abbrev GuardSet := List CKey

/-- `RequestGuard.is_locked(key)`. -/
def guard_is_locked (k : CKey) (s : GuardSet) : Bool := k ∈ s

/-- `RequestGuard.acquire(key)`: reject if the key is active, otherwise
insert it and report success. -/
def guard_acquire (k : CKey) (s : GuardSet) : Bool × GuardSet :=
  if k ∈ s then (false, s) else (true, k :: s)

/-- `RequestGuard.release(key)`: remove the key if present, otherwise do
nothing. -/
def guard_release (k : CKey) (s : GuardSet) : GuardSet := s.erase k

/-- `n` calls of `acquire(k)` in the serialization order imposed by the
guard's mutex: the list of boolean results and the final state. -/
def runAcquires (k : CKey) : Nat → GuardSet → List Bool × GuardSet
  | 0, s => ([], s)
  | n + 1, s =>
    let (b, s') := guard_acquire k s
    let (bs, s'') := runAcquires k n s'
    (b :: bs, s'')

/-! Auxiliary predicates used in the statements and proofs below. -/

/-- The ASCII uppercase letters. -/
def ucChars : List Char :=
  ['A','B','C','D','E','F','G','H','I','J','K','L','M',
   'N','O','P','Q','R','S','T','U','V','W','X','Y','Z']

/-- The first character, if any, is not whitespace. -/
def headOk : List Char → Bool
  | [] => true
  | c :: _ => !isSpc c

/-- No two adjacent whitespace characters. -/
def noAdjB : List Char → Bool
  | [] => true
  | [_] => true
  | a :: b :: r => (!(isSpc a && isSpc b)) && noAdjB (b :: r)

/-- Every whitespace character is a plain space. -/
def wsOkB (l : List Char) : Bool := l.all (fun c => !isSpc c || c == ' ')

/-- Numeric value of a decimal digit string, most significant first. -/
def digitsVal (l : List Char) : Nat :=
  l.foldl (fun a c => a * 10 + (c.toNat - 48)) 0

/-! Helper lemmas about the cache table. -/

theorem lookupK_setK_self {β : Type} (k : CKey) (p : Option β × Int)
    (es : Entries β) : lookupK k (setK k p es) = some p := by
  induction es with
  | nil => simp [setK, lookupK]
  | cons e es ih =>
    by_cases h : e.1 = k
    · simp [setK, lookupK, h]
    · simp [setK, lookupK, h, ih]

theorem lookupK_none_of_not_mem {β : Type} (k : CKey) (es : Entries β)
    (h : k ∉ es.map Prod.fst) : lookupK k es = none := by
  induction es with
  | nil => simp [lookupK]
  | cons e es ih =>
    simp only [List.map_cons, List.mem_cons, not_or] at h
    have he : e.1 ≠ k := fun hc => h.1 hc.symm
    simp only [lookupK, he, if_false]
    exact ih h.2

theorem lookupK_filter_none {β : Type} (k : CKey) (p : CKey × (Option β × Int) → Bool)
    (es : Entries β) (h : lookupK k es = none) :
    lookupK k (es.filter p) = none := by
  induction es with
  | nil => simp [lookupK]
  | cons e es ih =>
    by_cases he : e.1 = k
    · simp [lookupK, he] at h
    · simp only [lookupK, he, if_false] at h
      by_cases hp : p e
      · simp [List.filter_cons, hp, lookupK, he, ih h]
      · simp [List.filter_cons, hp, ih h]

theorem runAcquires_mem (k : CKey) (n : Nat) (s : GuardSet) (h : k ∈ s) :
    runAcquires k n s = (List.replicate n false, s) := by
  induction n with
  | zero => simp [runAcquires]
  | succ n ih => simp [runAcquires, guard_acquire, h, ih, List.replicate_succ]

/-- C4: the RequestGuard acquire/release protocol: acquiring an active key
fails and leaves the set unchanged; acquiring an inactive key succeeds and
inserts it; a second acquire before the release fails; after the release the
key can be acquired again; `is_locked` is true exactly while the key is
held. -/
theorem guard_protocol (k : CKey) (s : GuardSet) (h : k ∉ s) :
    guard_acquire k s = (true, k :: s)
    ∧ guard_acquire k (k :: s) = (false, k :: s)
    ∧ guard_release k (k :: s) = s
    ∧ guard_acquire k (guard_release k (k :: s)) = (true, k :: s)
    ∧ guard_is_locked k s = false
    ∧ guard_is_locked k (k :: s) = true
    ∧ guard_is_locked k (guard_release k (k :: s)) = false
    ∧ ∀ s' : GuardSet, k ∈ s' → guard_acquire k s' = (false, s') := by
  have herase : guard_release k (k :: s) = s := by
    simp [guard_release, List.erase_cons_head]
  refine ⟨by simp [guard_acquire, h], by simp [guard_acquire], herase, ?_, ?_, ?_, ?_, ?_⟩
  · rw [herase]; simp [guard_acquire, h]
  · simp [guard_is_locked, h]
  · simp [guard_is_locked]
  · rw [herase]; simp [guard_is_locked, h]
  · intro s' hs'; simp [guard_acquire, hs']

/-- Witness for C4 at a concrete key and state. -/
theorem guard_protocol_witness :
    (['x'] ∉ ([] : Ddlarr.GuardSet))
    ∧ (guard_acquire ['x'] [] = (true, [['x']])
      ∧ guard_acquire ['x'] [['x']] = (false, [['x']])
      ∧ guard_release ['x'] [['x']] = []
      ∧ guard_acquire ['x'] (guard_release ['x'] [['x']]) = (true, [['x']])
      ∧ guard_is_locked ['x'] [] = false
      ∧ guard_is_locked ['x'] [['x']] = true
      ∧ guard_is_locked ['x'] (guard_release ['x'] [['x']]) = false
      ∧ ∀ s' : GuardSet, ['x'] ∈ s' → guard_acquire ['x'] s' = (false, s')) :=
  ⟨by decide, guard_protocol ['x'] [] (by decide)⟩

/-- C7: in any serialization of concurrent acquire calls on the same key
(each call is atomic under the guard's mutex), exactly the first call
returns true and every other call returns false until the key is
released. -/
theorem acquire_race_exactly_one (k : CKey) (n : Nat) (s : GuardSet) (h : k ∉ s) :
    runAcquires k (n + 1) s = (true :: List.replicate n false, k :: s)
    ∧ (runAcquires k (n + 1) s).1.count true = 1 := by
  have hrun : runAcquires k (n + 1) s = (true :: List.replicate n false, k :: s) := by
    simp [runAcquires, guard_acquire, h,
      runAcquires_mem k n (k :: s) (List.mem_cons_self k s)]
  refine ⟨hrun, ?_⟩
  rw [hrun]
  simp [List.count_cons, List.count_replicate]

/-- Witness for C7 with three racing calls. -/
theorem acquire_race_witness :
    (['x'] ∉ ([] : Ddlarr.GuardSet))
    ∧ (runAcquires ['x'] 3 [] = (true :: List.replicate 2 false, [['x']])
      ∧ (runAcquires ['x'] 3 []).1.count true = 1) :=
  ⟨by decide, acquire_race_exactly_one ['x'] 2 [] (by decide)⟩

/-- C8: the expected outcomes are ordinary return values, not errors: a get
on a missing key returns the absent value with the table unchanged, a get on
an expired key returns the absent value, a duplicate acquire returns false
with the set unchanged, and a release of a key that is not held leaves the
set unchanged. -/
theorem expected_outcomes_not_errors {β : Type} (now now2 : Int)
    (k k2 k3 k4 : CKey) (es es2 : Entries β) (v2 : Option β) (exp2 : Int)
    (sIn sOut : GuardSet)
    (h1 : lookupK k es = none)
    (h2 : lookupK k2 es2 = some (v2, exp2)) (h3 : exp2 ≤ now2)
    (h4 : k3 ∈ sIn) (h5 : k4 ∉ sOut) :
    cache_get now k es = (none, es)
    ∧ (cache_get now2 k2 es2).1 = none
    ∧ guard_acquire k3 sIn = (false, sIn)
    ∧ guard_release k4 sOut = sOut := by
  refine ⟨?_, ?_, ?_, ?_⟩
  · simp [cache_get, h1]
  · simp [cache_get, h2, not_lt.mpr h3]
  · simp [guard_acquire, h4]
  · exact List.erase_of_not_mem h5

/-- Witness for C8 at concrete keys, tables and times. -/
theorem expected_outcomes_witness :
    (lookupK ['a'] ([] : Entries Nat) = none
      ∧ lookupK ['b'] [(['b'], (some 5, 0))] = some ((some 5 : Option Nat), 0)
      ∧ (0 : Int) ≤ 1
      ∧ ['c'] ∈ [['c']]
      ∧ ['d'] ∉ ([] : Ddlarr.GuardSet))
    ∧ (cache_get 0 ['a'] ([] : Entries Nat) = (none, [])
      ∧ (cache_get 1 ['b'] [(['b'], ((some 5 : Option Nat), 0))]).1 = none
      ∧ guard_acquire ['c'] [['c']] = (false, [['c']])
      ∧ guard_release ['d'] [] = []) :=
  ⟨⟨by decide, by decide, by decide, by decide, by decide⟩,
    expected_outcomes_not_errors 0 1 ['a'] ['b'] ['c'] ['d'] [] [(['b'], (some 5, 0))]
      (some 5) 0 [['c']] [] (by decide) (by decide) (by decide) (by decide) (by decide)⟩

/-- C5: `set` stores the value with expiration `now + ttl` (default TTL when
none is given), overwriting any previous entry for the key; `get` returns
the stored value while the current time is strictly before the expiration,
removes the entry and returns the absent value once it has expired, and
returns the absent value for a missing key. -/
theorem cache_get_set_semantics {β : Type} (now now1 now2 now3 : Int)
    (k k2 k3 : CKey) (v : Option β) (ttl : Option Int) (dflt : Int)
    (es es2 es3 : Entries β) (v2 : Option β) (exp2 : Int)
    (h1 : now1 < now + ttl.getD dflt)
    (h2 : lookupK k2 es2 = some (v2, exp2)) (h2' : exp2 ≤ now2)
    (h3 : lookupK k3 es3 = none) :
    lookupK k (cache_set now k v ttl dflt es) = some (v, now + ttl.getD dflt)
    ∧ cache_get now1 k (cache_set now k v ttl dflt es)
        = (v, cache_set now k v ttl dflt es)
    ∧ cache_get now2 k2 es2 = (none, eraseK k2 es2)
    ∧ cache_get now3 k3 es3 = (none, es3) := by
  have hl : lookupK k (cache_set now k v ttl dflt es) = some (v, now + ttl.getD dflt) :=
    lookupK_setK_self k _ es
  refine ⟨hl, ?_, ?_, ?_⟩
  · simp [cache_get, hl, h1]
  · simp [cache_get, h2, not_lt.mpr h2']
  · simp [cache_get, h3]

/-- Witness for C5 at a concrete key, value and times. -/
theorem cache_get_set_witness :
    ((5 : Int) < 0 + (Option.getD none 60)
      ∧ lookupK ['b'] [(['b'], ((some 7 : Option Nat), 2))] = some ((some 7 : Option Nat), 2)
      ∧ (2 : Int) ≤ 2
      ∧ lookupK ['c'] ([] : Entries Nat) = none)
    ∧ (lookupK ['a'] (cache_set 0 ['a'] (some 9) none 60 ([] : Entries Nat))
        = some ((some 9 : Option Nat), 0 + (Option.getD none 60))
      ∧ cache_get 5 ['a'] (cache_set 0 ['a'] (some 9) none 60 ([] : Entries Nat))
        = (some 9, cache_set 0 ['a'] (some 9) none 60 [])
      ∧ cache_get 2 ['b'] [(['b'], ((some 7 : Option Nat), 2))]
        = (none, eraseK ['b'] [(['b'], (some 7, 2))])
      ∧ cache_get 2 ['c'] ([] : Entries Nat) = (none, [])) :=
  ⟨⟨by decide, by decide, by decide, by decide⟩,
    cache_get_set_semantics 0 5 2 2 ['a'] ['b'] ['c'] (some 9) none 60 [] [(['b'], (some 7, 2))]
      [] (some 7) 2 (by decide) (by decide) (by decide) (by decide)⟩

/-- C6: `clear_expired` removes exactly the entries whose expiration has
passed: an entry with `exp <= now` is gone afterwards, while an entry with
`now < exp` is untouched and its value is still returned by `get`. -/
theorem clear_expired_exact {β : Type} (now : Int) (es : Entries β)
    (k : CKey) (v : Option β) (exp : Int)
    (hnd : (es.map Prod.fst).Nodup)
    (hk : lookupK k es = some (v, exp)) :
    (exp ≤ now → lookupK k (clear_expired now es) = none)
    ∧ (now < exp →
        lookupK k (clear_expired now es) = some (v, exp)
        ∧ cache_get now k (clear_expired now es) = (v, clear_expired now es)) := by
  induction es with
  | nil => simp [lookupK] at hk
  | cons e es ih =>
    simp only [List.map_cons, List.nodup_cons] at hnd
    by_cases he : e.1 = k
    · simp only [lookupK, he, if_true, Option.some.injEq] at hk
      have hexp : e.2.2 = exp := by rw [hk]
      have hknot : lookupK k es = none :=
        lookupK_none_of_not_mem k es (he ▸ hnd.1)
      constructor
      · intro hle
        have hdrop : ¬ (now < e.2.2) := by rw [hexp]; omega
        simp only [clear_expired, List.filter_cons]
        rw [if_neg (by simpa using hdrop)]
        exact lookupK_filter_none k _ es hknot
      · intro hlt
        have hkeep : now < e.2.2 := by rw [hexp]; exact hlt
        have hlook : lookupK k (clear_expired now (e :: es)) = some (v, exp) := by
          simp only [clear_expired, List.filter_cons]
          rw [if_pos (by simpa using hkeep)]
          simp [lookupK, he, hk]
        exact ⟨hlook, by simp [cache_get, hlook, hlt]⟩
    · simp only [lookupK, he, if_false] at hk
      have hres := ih hnd.2 hk
      have hsame : lookupK k (clear_expired now (e :: es))
          = lookupK k (clear_expired now es) := by
        simp only [clear_expired, List.filter_cons]
        by_cases hp : now < e.2.2
        · rw [if_pos (by simpa using hp)]; simp [lookupK, he]
        · rw [if_neg (by simpa using hp)]
      constructor
      · intro hle; rw [hsame]; exact hres.1 hle
      · intro hlt
        have h1 := (hres.2 hlt).1
        have hlook : lookupK k (clear_expired now (e :: es)) = some (v, exp) := by
          rw [hsame]; exact h1
        exact ⟨hlook, by simp [cache_get, hlook, hlt]⟩

/-- Witness for C6 on a table with one expired and one live entry. -/
theorem clear_expired_witness :
    (((([(['a'], ((some 1 : Option Nat), 0)), (['b'], (some 2, 9))] : Entries Nat).map
        Prod.fst).Nodup)
      ∧ lookupK ['a'] ([(['a'], ((some 1 : Option Nat), 0)), (['b'], (some 2, 9))] : Entries Nat)
        = some (some 1, 0))
    ∧ (((0 : Int) ≤ 5 → lookupK ['a']
        (clear_expired 5 ([(['a'], ((some 1 : Option Nat), 0)), (['b'], (some 2, 9))] : Entries Nat))
        = none)
      ∧ ((5 : Int) < 0 →
        lookupK ['a'] (clear_expired 5 ([(['a'], ((some 1 : Option Nat), 0)), (['b'], (some 2, 9))] : Entries Nat)) = some (some 1, 0)
        ∧ cache_get 5 ['a'] (clear_expired 5 ([(['a'], ((some 1 : Option Nat), 0)), (['b'], (some 2, 9))] : Entries Nat))
          = (some 1, clear_expired 5 [(['a'], (some 1, 0)), (['b'], (some 2, 9))]))) :=
  ⟨⟨by decide, by decide⟩,
    clear_expired_exact 5 [(['a'], (some 1, 0)), (['b'], (some 2, 9))] ['a'] (some 1) 0
      (by decide) (by decide)⟩

/-- C10: a cached `None` is indistinguishable from a miss through `get`:
after storing the absent value under a key, `get` returns the same sentinel
it returns for a key that was never stored, although `size` still counts the
entry. -/
theorem cached_none_is_miss {β : Type} (now now1 : Int) (k : CKey)
    (ttl : Option Int) (dflt : Int) (es es0 : Entries β)
    (h : now1 < now + ttl.getD dflt)
    (h0 : lookupK k es0 = none) :
    (cache_get now1 k (cache_set now k (none : Option β) ttl dflt es)).1 = none
    ∧ (cache_get now1 k es0).1 = none
    ∧ 1 ≤ cache_size (cache_set now k (none : Option β) ttl dflt es) := by
  refine ⟨?_, by simp [cache_get, h0], ?_⟩
  · have hl := lookupK_setK_self k ((none : Option β), now + ttl.getD dflt) es
    simp [cache_get, cache_set, hl, h]
  · unfold cache_size cache_set
    cases es with
    | nil => simp [setK]
    | cons e es => by_cases he : e.1 = k <;> simp [setK, he]

/-- Witness for C10 at a concrete key. -/
theorem cached_none_witness :
    ((5 : Int) < 0 + (Option.getD none 60) ∧ lookupK ['a'] ([] : Entries Nat) = none)
    ∧ ((cache_get 5 ['a'] (cache_set 0 ['a'] (none : Option Nat) none 60 [])).1 = none
      ∧ (cache_get 5 ['a'] ([] : Entries Nat)).1 = none
      ∧ 1 ≤ cache_size (cache_set 0 ['a'] (none : Option Nat) none 60 [])) :=
  ⟨⟨by decide, by decide⟩,
    cached_none_is_miss 0 5 ['a'] none 60 [] [] (by decide) (by decide)⟩

/-- C9: the result of `normalize_query` does not depend on the `season`
argument: the source accepts the parameter but never reads it. -/
theorem normalize_query_season_independent (q : List Char) (s1 s2 : Option Int) :
    normalize_query q s1 = normalize_query q s2 := rfl

/-- C1 counterexample: `normalize_query` is not idempotent.  The query
`foo tv tv` normalizes to `foo tv` in one pass — the end-anchored tv pattern
is substituted only once per pass — and a second pass strips it further to
`foo`. -/
theorem normalize_query_not_idempotent :
    normalize_query (normalize_query ['f','o','o',' ','t','v',' ','t','v'] none) none
      ≠ normalize_query ['f','o','o',' ','t','v',' ','t','v'] none
    ∧ normalize_query ['f','o','o',' ','t','v',' ','t','v'] none = ['f','o','o',' ','t','v']
    ∧ normalize_query (normalize_query ['f','o','o',' ','t','v',' ','t','v'] none) none
      = ['f','o','o'] := by
  decide

/-- C2 counterexample: two calls of `generate_cache_key` with identical query
text whose season and episode values differ — one has season 1 and no
episode, the other no season and episode 1 — produce the same key
`q|series|1`. -/
theorem generate_cache_key_collision :
    generate_cache_key ['q'] ['s','e','r','i','e','s'] (some 1) none
      = generate_cache_key ['q'] ['s','e','r','i','e','s'] none (some 1)
    ∧ ((some 1 : Option Int), (none : Option Int)) ≠ ((none : Option Int), (some 1 : Option Int))
    ∧ generate_cache_key ['q'] ['s','e','r','i','e','s'] (some 1) none
      = ['q','|','s','e','r','i','e','s','|','1'] := by
  decide

/-- C3 counterexample: the queries `foo tv` and `foo tv tv` differ only by
the recognized trailing suffix ` tv`, yet with identical media type, season
and episode they normalize differently and produce different cache keys. -/
theorem suffix_collapse_fails :
    normalize_query ['f','o','o',' ','t','v',' ','t','v'] (some 1)
      ≠ normalize_query ['f','o','o',' ','t','v'] (some 1)
    ∧ generate_cache_key ['f','o','o',' ','t','v',' ','t','v']
        ['s','e','r','i','e','s'] (some 1) none
      ≠ generate_cache_key ['f','o','o',' ','t','v']
        ['s','e','r','i','e','s'] (some 1) none := by
  decide

/-! Character-level facts about ASCII lowercasing. -/

theorem ucChars_eq_map_fst : ucChars = lcMap.map Prod.fst := by decide

theorem lowerChar_eq_of_not_mem (c : Char) (h : c ∉ ucChars) : lowerChar c = c := by
  unfold lowerChar
  have hf : lcMap.find? (fun p => p.1 == c) = none := by
    rw [List.find?_eq_none]
    intro p hp hbeq
    have hpc : p.1 = c := by simpa using hbeq
    exact h (hpc ▸ (ucChars_eq_map_fst ▸ List.mem_map_of_mem Prod.fst hp))
  rw [hf]

theorem lowerChar_not_mem_uc (c : Char) : lowerChar c ∉ ucChars := by
  unfold lowerChar
  cases hf : lcMap.find? (fun p => p.1 == c) with
  | none =>
    intro hc
    rcases List.mem_map.mp (ucChars_eq_map_fst ▸ hc) with ⟨p, hp, hpc⟩
    exact List.find?_eq_none.mp hf p hp (by simpa using hpc)
  | some p =>
    have hp : p ∈ lcMap := List.mem_of_find?_eq_some hf
    have hsnd : p.2 ∈ lcMap.map Prod.snd := List.mem_map_of_mem Prod.snd hp
    have hd : ∀ b ∈ lcMap.map Prod.snd, b ∉ ucChars := by decide
    exact hd p.2 hsnd

theorem lowerChar_idem (c : Char) : lowerChar (lowerChar c) = lowerChar c :=
  lowerChar_eq_of_not_mem _ (lowerChar_not_mem_uc c)

theorem lower_eq_self (l : List Char) (h : ∀ c ∈ l, lowerChar c = c) :
    lower l = l := by
  induction l with
  | nil => rfl
  | cons x t ih =>
    have hx := h x (List.mem_cons_self x t)
    have ht := ih (fun c hc => h c (List.mem_cons_of_mem x hc))
    simp only [lower, List.map_cons] at *
    rw [hx, ht]

theorem lowerChar_fixed_of_mem_lower (c : Char) (l : List Char)
    (h : c ∈ lower l) : lowerChar c = c := by
  unfold lower at h
  rcases List.mem_map.mp h with ⟨d, _, rfl⟩
  exact lowerChar_idem d

/-! Membership is only ever narrowed by the normalization stages, except that
whitespace collapsing may introduce a plain space. -/

theorem mem_stripL {c : Char} {l : List Char} (h : c ∈ stripL l) : c ∈ l := by
  induction l with
  | nil => simpa [stripL] using h
  | cons x t ih =>
    by_cases hx : isSpc x
    · simp only [stripL, List.dropWhile_cons, hx, if_true] at h
      exact List.mem_cons_of_mem x (ih h)
    · simpa [stripL, List.dropWhile_cons, hx] using h

theorem mem_stripR {c : Char} {l : List Char} (h : c ∈ stripR l) : c ∈ l := by
  induction l with
  | nil => simpa [stripR] using h
  | cons x t ih =>
    simp only [stripR] at h
    by_cases hr : stripR t = []
    · rw [if_pos hr] at h
      cases hx : isSpc x with
      | true => simp [hx] at h
      | false =>
        simp only [hx, Bool.false_eq_true, if_false, List.mem_singleton] at h
        exact h ▸ List.mem_cons_self x t
    · rw [if_neg hr] at h
      rcases List.mem_cons.mp h with h | h
      · exact h ▸ List.mem_cons_self x t
      · exact List.mem_cons_of_mem x (ih h)

theorem mem_strip {c : Char} {l : List Char} (h : c ∈ strip l) : c ∈ l :=
  mem_stripL (mem_stripR h)

theorem mem_collapseAux {c : Char} {l : List Char} :
    ∀ b, c ∈ collapseAux b l → c ∈ l ∨ c = ' ' := by
  induction l with
  | nil => intro b h; simp [collapseAux] at h
  | cons x t ih =>
    intro b h
    by_cases hx : isSpc x
    · simp only [collapseAux, hx, if_true] at h
      by_cases hb : b
      · subst hb
        rw [if_pos rfl] at h
        rcases ih true h with h | h
        · exact Or.inl (List.mem_cons_of_mem x h)
        · exact Or.inr h
      · simp only [hb, if_false] at h
        rcases List.mem_cons.mp h with h | h
        · exact Or.inr h
        · rcases ih true h with h | h
          · exact Or.inl (List.mem_cons_of_mem x h)
          · exact Or.inr h
    · simp only [collapseAux, hx, if_false] at h
      rcases List.mem_cons.mp h with h | h
      · exact Or.inl (h ▸ List.mem_cons_self x t)
      · rcases ih false h with h | h
        · exact Or.inl (List.mem_cons_of_mem x h)
        · exact Or.inr h

theorem mem_collapse {c : Char} {l : List Char} (h : c ∈ collapse l) :
    c ∈ l ∨ c = ' ' := mem_collapseAux false h

theorem mem_subAllF {c : Char} (m : List Char → Option Nat) :
    ∀ (f : Nat) (l : List Char), c ∈ subAllF m f l → c ∈ l := by
  intro f
  induction f with
  | zero => intro l h; simpa [subAllF] using h
  | succ f ih =>
    intro l h
    cases l with
    | nil => simpa [subAllF] using h
    | cons x cs =>
      simp only [subAllF] at h
      cases hm : m (x :: cs) with
      | none =>
        rw [hm] at h
        rcases List.mem_cons.mp h with h | h
        · exact h ▸ List.mem_cons_self x cs
        · exact List.mem_cons_of_mem x (ih cs h)
      | some k =>
        cases k with
        | zero =>
          rw [hm] at h
          rcases List.mem_cons.mp h with h | h
          · exact h ▸ List.mem_cons_self x cs
          · exact List.mem_cons_of_mem x (ih cs h)
        | succ k =>
          rw [hm] at h
          have h2 : c ∈ cs.drop k := ih _ h
          exact List.mem_cons_of_mem x ((List.drop_sublist k cs).subset h2)

theorem mem_subAll {c : Char} {m : List Char → Option Nat} {l : List Char}
    (h : c ∈ subAll m l) : c ∈ l := mem_subAllF m l.length l h

theorem matchRev_suffix :
    ∀ (ts : List RTok) (r r' : List Char), matchRev ts r = some r' → r' <:+ r := by
  intro ts
  induction ts with
  | nil =>
    intro r r' h
    simp only [matchRev, Option.some.injEq] at h
    exact h ▸ List.suffix_refl r
  | cons t ts ih =>
    intro r r' h
    cases t with
    | rlit c =>
      cases r with
      | nil => simp [matchRev] at h
      | cons x rest =>
        simp only [matchRev] at h
        by_cases hx : x = c
        · rw [if_pos hx] at h
          exact (ih rest r' h).trans (List.suffix_cons x rest)
        · rw [if_neg hx] at h; exact absurd h (by simp)
    | rdig =>
      cases r with
      | nil => simp [matchRev] at h
      | cons x rest =>
        simp only [matchRev] at h
        by_cases hx : isDig x
        · rw [if_pos hx] at h
          exact (ih rest r' h).trans (List.suffix_cons x rest)
        · rw [if_neg hx] at h; exact absurd h (by simp)
    | rwsP =>
      cases r with
      | nil => simp [matchRev] at h
      | cons x rest =>
        simp only [matchRev] at h
        by_cases hx : isSpc x
        · rw [if_pos hx] at h
          have h1 := ih _ r' h
          have h2 : rest.dropWhile isSpc <:+ rest := List.dropWhile_suffix isSpc
          exact (h1.trans h2).trans (List.suffix_cons x rest)
        · rw [if_neg hx] at h; exact absurd h (by simp)

theorem mem_dropEnd {c : Char} {ts : List RTok} {l : List Char}
    (h : c ∈ dropEnd ts l) : c ∈ l := by
  unfold dropEnd at h
  cases hm : matchRev ts l.reverse with
  | none => rw [hm] at h; exact h
  | some r =>
    rw [hm] at h
    have h1 : c ∈ r := List.mem_reverse.mp h
    have h2 : c ∈ l.reverse := (matchRev_suffix ts _ r hm).subset h1
    exact List.mem_reverse.mp h2

theorem mem_stripPats {c : Char} {l : List Char} (h : c ∈ stripPats l) : c ∈ l := by
  unfold stripPats at h
  exact mem_subAll (mem_subAll (mem_subAll (mem_subAll
    (mem_dropEnd (mem_dropEnd (mem_dropEnd (mem_dropEnd (mem_dropEnd
    (mem_dropEnd (mem_dropEnd (mem_dropEnd (mem_dropEnd (mem_dropEnd
    (mem_dropEnd (mem_dropEnd (mem_dropEnd (mem_dropEnd h)))))))))))))))))

/-! Shape invariants of the whitespace-collapsing and stripping stages. -/

theorem collapseAux_wsOk {c : Char} {l : List Char} :
    ∀ b, c ∈ collapseAux b l → isSpc c = true → c = ' ' := by
  induction l with
  | nil => intro b h; simp [collapseAux] at h
  | cons x t ih =>
    intro b h hc
    cases hx : isSpc x with
    | true =>
      simp only [collapseAux, hx, if_true] at h
      by_cases hb : b
      · subst hb; rw [if_pos rfl] at h; exact ih true h hc
      · simp only [hb, if_false] at h
        rcases List.mem_cons.mp h with h | h
        · exact h
        · exact ih true h hc
    | false =>
      simp only [collapseAux, hx, Bool.false_eq_true, if_false] at h
      rcases List.mem_cons.mp h with h | h
      · rw [h] at hc; rw [hc] at hx; cases hx
      · exact ih false h hc

theorem headOk_collapseAux_true (l : List Char) :
    headOk (collapseAux true l) = true := by
  induction l with
  | nil => rfl
  | cons x t ih =>
    cases hx : isSpc x with
    | true => simpa [collapseAux, hx] using ih
    | false => simp [collapseAux, hx, headOk]

theorem noAdjB_cons (c : Char) (t : List Char) (ht : noAdjB t = true)
    (hc : isSpc c = true → headOk t = true) : noAdjB (c :: t) = true := by
  cases t with
  | nil => rfl
  | cons y r =>
    simp only [noAdjB, Bool.and_eq_true, Bool.not_eq_true']
    refine ⟨?_, ht⟩
    cases hcs : isSpc c with
    | false => simp
    | true =>
      have := hc hcs
      simp only [headOk, Bool.not_eq_true'] at this
      simp [this]

theorem noAdjB_collapseAux (l : List Char) :
    ∀ b, noAdjB (collapseAux b l) = true := by
  induction l with
  | nil => intro b; rfl
  | cons x t ih =>
    intro b
    cases hx : isSpc x with
    | true =>
      simp only [collapseAux, hx, if_true]
      by_cases hb : b
      · subst hb; rw [if_pos rfl]; exact ih true
      · simp only [hb, if_false]
        exact noAdjB_cons ' ' _ (ih true) (fun _ => headOk_collapseAux_true t)
    | false =>
      simp only [collapseAux, hx, Bool.false_eq_true, if_false]
      refine noAdjB_cons x _ (ih false) (fun hcs => ?_)
      rw [hcs] at hx; cases hx

theorem noAdjB_tail {c : Char} {t : List Char} (h : noAdjB (c :: t) = true) :
    noAdjB t = true := by
  cases t with
  | nil => rfl
  | cons y r =>
    simp only [noAdjB, Bool.and_eq_true] at h
    exact h.2

theorem noAdjB_head_pair {c : Char} {t : List Char} (h : noAdjB (c :: t) = true)
    (hc : isSpc c = true) : headOk t = true := by
  cases t with
  | nil => rfl
  | cons y r =>
    simp only [noAdjB, Bool.and_eq_true] at h
    have h1 := h.1
    simp only [Bool.not_eq_true', Bool.and_eq_false_iff] at h1
    rcases h1 with h1 | h1
    · rw [hc] at h1; cases h1
    · simp [headOk, h1]

theorem headOk_stripL (l : List Char) : headOk (stripL l) = true := by
  induction l with
  | nil => rfl
  | cons x t ih =>
    cases hx : isSpc x with
    | true => simpa [stripL, List.dropWhile_cons, hx] using ih
    | false => simp [stripL, List.dropWhile_cons, hx, headOk]

theorem stripL_eq_of_headOk (l : List Char) (h : headOk l = true) :
    stripL l = l := by
  cases l with
  | nil => rfl
  | cons x t =>
    simp only [headOk, Bool.not_eq_true'] at h
    simp [stripL, List.dropWhile_cons, h]

theorem noAdjB_stripL (l : List Char) (h : noAdjB l = true) :
    noAdjB (stripL l) = true := by
  induction l with
  | nil => rfl
  | cons x t ih =>
    cases hx : isSpc x with
    | true =>
      simp only [stripL, List.dropWhile_cons, hx, if_true]
      exact ih (noAdjB_tail h)
    | false => simpa [stripL, List.dropWhile_cons, hx] using h

theorem stripR_head (l : List Char) (h : stripR l ≠ []) :
    (stripR l).head? = l.head? := by
  cases l with
  | nil => rfl
  | cons x t =>
    simp only [stripR] at h ⊢
    by_cases hr : stripR t = []
    · rw [if_pos hr] at h ⊢
      cases hx : isSpc x with
      | true => simp [hx] at h
      | false => simp [hx]
    · rw [if_neg hr]; rfl

theorem headOk_stripR (l : List Char) (h : headOk l = true) :
    headOk (stripR l) = true := by
  by_cases hr : stripR l = []
  · rw [hr]; rfl
  · have hh := stripR_head l hr
    cases l with
    | nil => rfl
    | cons x t =>
      cases hs : stripR (x :: t) with
      | nil => rfl
      | cons y r =>
        rw [hs] at hh
        simp only [List.head?] at hh
        have : y = x := by injection hh
        subst this
        simpa [headOk] using h

theorem noAdjB_stripR (l : List Char) (h : noAdjB l = true) :
    noAdjB (stripR l) = true := by
  induction l with
  | nil => rfl
  | cons x t ih =>
    simp only [stripR]
    by_cases hr : stripR t = []
    · rw [if_pos hr]
      cases hx : isSpc x <;> simp [noAdjB]
    · rw [if_neg hr]
      refine noAdjB_cons x _ (ih (noAdjB_tail h)) (fun hcs => ?_)
      have hh := stripR_head t hr
      cases ht : stripR t with
      | nil => exact absurd ht hr
      | cons y r =>
        rw [ht] at hh
        cases t with
        | nil => simp [stripR] at ht
        | cons z u =>
          simp only [List.head?] at hh
          have hy : y = z := by injection hh
          subst hy
          have := noAdjB_head_pair h hcs
          simpa [headOk] using this

theorem stripR_idem (l : List Char) : stripR (stripR l) = stripR l := by
  induction l with
  | nil => rfl
  | cons x t ih =>
    simp only [stripR]
    by_cases hr : stripR t = []
    · rw [if_pos hr]
      cases hx : isSpc x with
      | true => simp [stripR]
      | false => simp [stripR, hx]
    · rw [if_neg hr]
      simp only [stripR, ih, if_neg hr]

theorem stripL_idem (l : List Char) : stripL (stripL l) = stripL l :=
  stripL_eq_of_headOk _ (headOk_stripL l)

theorem strip_idem (l : List Char) : strip (strip l) = strip l := by
  unfold strip
  rw [stripL_eq_of_headOk (stripR (stripL l))
    (headOk_stripR _ (headOk_stripL l)), stripR_idem]

theorem collapseAux_eq_self (l : List Char)
    (hws : ∀ c ∈ l, isSpc c = true → c = ' ')
    (hadj : noAdjB l = true) :
    collapseAux false l = l ∧ (headOk l = true → collapseAux true l = l) := by
  induction l with
  | nil => exact ⟨rfl, fun _ => rfl⟩
  | cons x t ih =>
    have hwst : ∀ c ∈ t, isSpc c = true → c = ' ' :=
      fun c hc => hws c (List.mem_cons_of_mem x hc)
    have iht := ih hwst (noAdjB_tail hadj)
    constructor
    · cases hx : isSpc x with
      | true =>
        have hx' : x = ' ' := hws x (List.mem_cons_self x t) hx
        have hht : headOk t = true := noAdjB_head_pair hadj hx
        simp only [collapseAux, hx, if_true, Bool.false_eq_true, if_false]
        rw [iht.2 hht, hx']
      | false =>
        simp only [collapseAux, hx, Bool.false_eq_true, if_false]
        rw [iht.1]
    · intro hh
      simp only [headOk, Bool.not_eq_true'] at hh
      simp only [collapseAux, hh, Bool.false_eq_true, if_false]
      rw [iht.1]

theorem normalize_query_fixed (q : List Char) (s : Option Int) :
    strip (normalize_query q s) = normalize_query q s
    ∧ lower (normalize_query q s) = normalize_query q s
    ∧ collapse (normalize_query q s) = normalize_query q s := by
  by_cases hq : q = []
  · simp [normalize_query, hq, strip, stripL, stripR, lower, collapse, collapseAux]
  · have hN : normalize_query q s = strip (collapse (stripPats (lower (strip q)))) := by
      simp [normalize_query, hq]
    refine ⟨?_, ?_, ?_⟩
    · rw [hN]; exact strip_idem _
    · apply lower_eq_self
      intro c hc
      rw [hN] at hc
      rcases mem_collapse (mem_strip hc) with hc2 | hc2
      · exact lowerChar_fixed_of_mem_lower c (strip q) (mem_stripPats hc2)
      · rw [hc2]; decide
    · rw [hN]
      unfold strip
      have hws : ∀ c ∈ stripR (stripL (collapse (stripPats (lower (strip q))))),
          isSpc c = true → c = ' ' := by
        intro c hc hcs
        exact collapseAux_wsOk false (mem_stripL (mem_stripR hc)) hcs
      have hadj := noAdjB_stripR (stripL (collapse (stripPats (lower (strip q)))))
        (noAdjB_stripL (collapse (stripPats (lower (strip q))))
          (noAdjB_collapseAux (stripPats (lower (strip q))) false))
      exact (collapseAux_eq_self _ hws hadj).1

/-- C1 amended: normalize_query is idempotent on every query whose
normalized form is left unchanged by the pattern cascade, i.e. whose
normalized form contains no further removable suffix.  (The unconditional
claim is refuted above: a pass removes each end-anchored suffix at most
once, so stacked suffixes survive one pass and are stripped by the
next.) -/
theorem normalize_query_idempotent_of_patternFree (q : List Char) (s : Option Int)
    (h : stripPats (normalize_query q s) = normalize_query q s) :
    normalize_query (normalize_query q s) s = normalize_query q s := by
  obtain ⟨hstrip, hlower, hcollapse⟩ := normalize_query_fixed q s
  by_cases hN : normalize_query q s = []
  · rw [hN]; rfl
  · conv_lhs => rw [normalize_query, if_neg hN]
    rw [hstrip, hlower, h, hcollapse, hstrip]

/-- Witness for the amended C1 on the spec's own example query. -/
theorem normalize_query_idempotent_witness :
    (stripPats (normalize_query
        ['J','u','j','u','t','s','u',' ','K','a','i','s','e','n'] none)
      = normalize_query ['J','u','j','u','t','s','u',' ','K','a','i','s','e','n'] none)
    ∧ normalize_query (normalize_query
        ['J','u','j','u','t','s','u',' ','K','a','i','s','e','n'] none) none
      = normalize_query ['J','u','j','u','t','s','u',' ','K','a','i','s','e','n'] none :=
  ⟨by decide, normalize_query_idempotent_of_patternFree _ none (by decide)⟩

/-! Decimal rendering of key components and injectivity of the joined key. -/

theorem digitChar_toNat (n : Nat) (h : n < 10) : (digitChar n).toNat = 48 + n := by
  interval_cases n <;> rfl

theorem isDig_digitChar (n : Nat) : isDig (digitChar n) = true := by
  rcases n with _ | _ | _ | _ | _ | _ | _ | _ | _ | n <;> rfl

theorem digitsVal_append_one (l : List Char) (c : Char) :
    digitsVal (l ++ [c]) = digitsVal l * 10 + (c.toNat - 48) := by
  unfold digitsVal
  rw [List.foldl_append]
  rfl

theorem digitsF_val : ∀ (f n : Nat), n < f → digitsVal (digitsF f n) = n := by
  intro f
  induction f with
  | zero => intro n h; omega
  | succ f ih =>
    intro n h
    by_cases h10 : n < 10
    · simp only [digitsF, h10, if_true]
      unfold digitsVal
      simp only [List.foldl_cons, List.foldl_nil]
      rw [digitChar_toNat n h10]
      omega
    · simp only [digitsF, h10, if_false]
      rw [digitsVal_append_one]
      have hlt : n / 10 < f := by omega
      rw [ih (n / 10) hlt, digitChar_toNat (n % 10) (by omega)]
      omega

theorem digitsF_all_dig : ∀ (f n : Nat) (c : Char), c ∈ digitsF f n → isDig c = true := by
  intro f
  induction f with
  | zero => intro n c h; simp [digitsF] at h
  | succ f ih =>
    intro n c h
    by_cases h10 : n < 10
    · simp only [digitsF, h10, if_true, List.mem_singleton] at h
      exact h ▸ isDig_digitChar n
    · simp only [digitsF, h10, if_false, List.mem_append, List.mem_singleton] at h
      rcases h with h | h
      · exact ih (n / 10) c h
      · exact h ▸ isDig_digitChar (n % 10)

theorem digitsF_ne_nil (f n : Nat) (h : 0 < f) : digitsF f n ≠ [] := by
  cases f with
  | zero => omega
  | succ f =>
    by_cases h10 : n < 10
    · simp [digitsF, h10]
    · simp [digitsF, h10]

theorem natStr_inj (a b : Nat) (h : natStr a = natStr b) : a = b := by
  have ha := digitsF_val (a + 1) a (Nat.lt_succ_self a)
  have hb := digitsF_val (b + 1) b (Nat.lt_succ_self b)
  unfold natStr at h
  rw [h] at ha
  rw [hb] at ha
  omega

theorem natStr_all_dig (n : Nat) (c : Char) (h : c ∈ natStr n) : isDig c = true :=
  digitsF_all_dig (n + 1) n c h

theorem intStr_inj (i j : Int) (h : intStr i = intStr j) : i = j := by
  unfold intStr at h
  by_cases hi : i < 0 <;> by_cases hj : j < 0
  · rw [if_pos hi, if_pos hj] at h
    have := natStr_inj i.natAbs j.natAbs (by injection h)
    omega
  · rw [if_pos hi, if_neg hj] at h
    have : ('-' : Char) ∈ natStr j.natAbs := h ▸ List.mem_cons_self '-' _
    have := natStr_all_dig j.natAbs '-' this
    exact absurd this (by decide)
  · rw [if_neg hi, if_pos hj] at h
    have : ('-' : Char) ∈ natStr i.natAbs := h.symm ▸ List.mem_cons_self '-' _
    have := natStr_all_dig i.natAbs '-' this
    exact absurd this (by decide)
  · rw [if_neg hi, if_neg hj] at h
    have := natStr_inj i.natAbs j.natAbs h
    omega

theorem intStr_no_bar (i : Int) : ('|' : Char) ∉ intStr i := by
  intro h
  unfold intStr at h
  have hdig : isDig '|' = true := by
    by_cases hi : i < 0
    · rw [if_pos hi] at h
      rcases List.mem_cons.mp h with h | h
      · cases h
      · exact natStr_all_dig _ _ h
    · rw [if_neg hi] at h
      exact natStr_all_dig _ _ h
  exact absurd hdig (by decide)

theorem barfree_split :
    ∀ (x y A B : List Char), ('|' : Char) ∉ x → ('|' : Char) ∉ y →
      x ++ '|' :: A = y ++ '|' :: B → x = y ∧ A = B := by
  intro x
  induction x with
  | nil =>
    intro y A B _ hy h
    cases y with
    | nil => simpa using h
    | cons c ys =>
      simp only [List.nil_append, List.cons_append, List.cons.injEq] at h
      exact absurd (h.1 ▸ List.mem_cons_self c ys) (h.1 ▸ hy)
  | cons a xs ih =>
    intro y A B hx hy h
    cases y with
    | nil =>
      simp only [List.cons_append, List.nil_append, List.cons.injEq] at h
      exact absurd (h.1 ▸ List.mem_cons_self a xs) (h.1 ▸ hx)
    | cons c ys =>
      simp only [List.cons_append, List.cons.injEq] at h
      obtain ⟨hac, htail⟩ := h
      have hxs : ('|' : Char) ∉ xs := fun hm => hx (List.mem_cons_of_mem a hm)
      have hys : ('|' : Char) ∉ ys := fun hm => hy (List.mem_cons_of_mem c hm)
      obtain ⟨h1, h2⟩ := ih ys A B hxs hys htail
      exact ⟨by rw [hac, h1], h2⟩

theorem joinBar_cons (x : List Char) (xs : List (List Char)) (h : xs ≠ []) :
    joinBar (x :: xs) = x ++ '|' :: joinBar xs := by
  cases xs with
  | nil => exact absurd rfl h
  | cons y ys => rfl

theorem joinBar_inj :
    ∀ (xs ys : List (List Char)),
      (∀ s ∈ xs, ('|' : Char) ∉ s) → (∀ s ∈ ys, ('|' : Char) ∉ s) →
      xs ≠ [] → ys ≠ [] → joinBar xs = joinBar ys → xs = ys := by
  intro xs
  induction xs with
  | nil => intro ys _ _ hne; exact absurd rfl hne
  | cons x xs ih =>
    intro ys hx hy _ hyne h
    cases ys with
    | nil => exact absurd rfl hyne
    | cons y ys =>
      cases hxs : xs with
      | nil =>
        cases hys : ys with
        | nil =>
          subst hxs hys
          simp only [joinBar] at h
          rw [h]
        | cons z zs =>
          subst hxs hys
          rw [joinBar_cons y (z :: zs) (by simp)] at h
          simp only [joinBar] at h
          have : ('|' : Char) ∈ x := by
            rw [h]
            exact List.mem_append_right y (List.mem_cons_self '|' _)
          exact absurd this (hx x (List.mem_cons_self x _))
      | cons w ws =>
        cases hys : ys with
        | nil =>
          subst hxs hys
          rw [joinBar_cons x (w :: ws) (by simp)] at h
          simp only [joinBar] at h
          have : ('|' : Char) ∈ y := by
            rw [← h]
            exact List.mem_append_right x (List.mem_cons_self '|' _)
          exact absurd this (hy y (List.mem_cons_self y _))
        | cons z zs =>
          subst hxs hys
          rw [joinBar_cons x (w :: ws) (by simp),
            joinBar_cons y (z :: zs) (by simp)] at h
          obtain ⟨h1, h2⟩ := barfree_split x y _ _
            (hx x (List.mem_cons_self x _)) (hy y (List.mem_cons_self y _)) h
          have h3 := ih (z :: zs)
            (fun s hs => hx s (List.mem_cons_of_mem x hs))
            (fun s hs => hy s (List.mem_cons_of_mem y hs))
            (by simp) (by simp) h2
          rw [h1, h3]

theorem optParts_inj (s e s2 e2 : Option Int)
    (hse : e ≠ none → s ≠ none) (hse2 : e2 ≠ none → s2 ≠ none)
    (h : optPart s ++ optPart e = optPart s2 ++ optPart e2) :
    s = s2 ∧ e = e2 := by
  rcases s with _ | a
  · have he : e = none := by
      rcases e with _ | b
      · rfl
      · exact absurd rfl (hse (by simp))
    subst he
    rcases s2 with _ | a2
    · have he2 : e2 = none := by
        rcases e2 with _ | b2
        · rfl
        · exact absurd rfl (hse2 (by simp))
      subst he2
      exact ⟨rfl, rfl⟩
    · simp [optPart] at h
  · rcases s2 with _ | a2
    · have he2 : e2 = none := by
        rcases e2 with _ | b2
        · rfl
        · exact absurd rfl (hse2 (by simp))
      subst he2
      simp [optPart] at h
    · rcases e with _ | b <;> rcases e2 with _ | b2
      · simp only [optPart, List.append_nil] at h
        rw [intStr_inj a a2 (by injection h)]
        exact ⟨rfl, rfl⟩
      · simp [optPart] at h
      · simp [optPart] at h
      · simp only [optPart, List.cons_append, List.nil_append] at h
        injection h with h1 h2
        injection h2 with h2 _
        rw [intStr_inj a a2 h1, intStr_inj b b2 h2]
        exact ⟨rfl, rfl⟩

/-- C2 amended: for a fixed query text, `generate_cache_key` distinguishes
any two parameter triples of media type, season and episode, provided the
media types contain no bar (the join delimiter) and an episode is only ever
supplied together with a season.  Without the latter proviso the claim is
false: season `k` with no episode and episode `k` with no season render the
same `|k` tail, as the counterexample above shows. -/
theorem generate_cache_key_injective_amended
    (q mt mt2 : List Char) (s e s2 e2 : Option Int)
    (hmt : ('|' : Char) ∉ mt) (hmt2 : ('|' : Char) ∉ mt2)
    (hse : e ≠ none → s ≠ none) (hse2 : e2 ≠ none → s2 ≠ none)
    (hne : (mt, s, e) ≠ (mt2, s2, e2)) :
    generate_cache_key q mt s e ≠ generate_cache_key q mt2 s2 e2 := by
  intro h
  apply hne
  unfold generate_cache_key at h
  have hnorm : normalize_query q s = normalize_query q s2 := rfl
  rw [joinBar_cons _ (mt :: (optPart s ++ optPart e)) (by simp),
    joinBar_cons _ (mt2 :: (optPart s2 ++ optPart e2)) (by simp), ← hnorm] at h
  have h2 := List.append_cancel_left h
  have h3 : joinBar (mt :: (optPart s ++ optPart e))
      = joinBar (mt2 :: (optPart s2 ++ optPart e2)) := by
    injection h2
  have hbf : ∀ o : Option Int, ∀ u ∈ optPart o, ('|' : Char) ∉ u := by
    intro o u hu
    cases o with
    | none => simp [optPart] at hu
    | some k =>
      simp only [optPart, List.mem_singleton] at hu
      exact hu ▸ intStr_no_bar k
  have h4 := joinBar_inj (mt :: (optPart s ++ optPart e))
    (mt2 :: (optPart s2 ++ optPart e2))
    (by
      intro u hu
      rcases List.mem_cons.mp hu with hu | hu
      · exact hu ▸ hmt
      · rcases List.mem_append.mp hu with hu | hu
        · exact hbf s u hu
        · exact hbf e u hu)
    (by
      intro u hu
      rcases List.mem_cons.mp hu with hu | hu
      · exact hu ▸ hmt2
      · rcases List.mem_append.mp hu with hu | hu
        · exact hbf s2 u hu
        · exact hbf e2 u hu)
    (by simp) (by simp) h3
  have hmteq : mt = mt2 := by injection h4
  have h5 : optPart s ++ optPart e = optPart s2 ++ optPart e2 := by injection h4
  obtain ⟨hseq, heeq⟩ := optParts_inj s e s2 e2 hse hse2 h5
  rw [hmteq, hseq, heeq]

/-- Witness for the amended C2: season 1 and season 2 with the same query
and media type produce different keys, matching the spec's example. -/
theorem generate_cache_key_injective_witness :
    (('|' : Char) ∉ ['s','e','r','i','e','s']
      ∧ ((some 1 : Option Int) ≠ none → (none : Option Int) ≠ none → False)
      ∧ ((['s','e','r','i','e','s'], (some 1 : Option Int), (none : Option Int))
          ≠ (['s','e','r','i','e','s'], (some 2 : Option Int), (none : Option Int))))
    ∧ generate_cache_key ['q'] ['s','e','r','i','e','s'] (some 1) none
      ≠ generate_cache_key ['q'] ['s','e','r','i','e','s'] (some 2) none :=
  ⟨⟨by decide, fun _ h => h rfl, by simp⟩,
    generate_cache_key_injective_amended ['q'] _ _ (some 1) none (some 2) none
      (by decide) (by decide) (fun _ => by simp) (fun _ => by simp) (by simp)⟩

/-! How the scanning primitives behave on an appended tail.  These lemmas
support the proof that the pattern cascade removes an appended canonical
suffix exactly, with no interference from the base query. -/

theorem spanLen_append_pos (p : Char → Bool) (a b : List Char)
    (h : (spanLen p a).2 ≠ []) :
    spanLen p (a ++ b) = ((spanLen p a).1, (spanLen p a).2 ++ b) := by
  induction a with
  | nil => simp [spanLen] at h
  | cons c r ih =>
    rcases hps : spanLen p r with ⟨n, rest⟩
    cases hc : p c with
    | true =>
      have h2 : spanLen p (c :: r) = (n + 1, rest) := by simp [spanLen, hc, hps]
      have hrest : rest ≠ [] := by
        intro hnil; rw [h2, hnil] at h; exact h rfl
      have h3 := ih (by rw [hps]; exact hrest)
      rw [hps] at h3
      simp only at h3
      rw [h2]
      show spanLen p (c :: (r ++ b)) = ((n + 1, rest).1, (n + 1, rest).2 ++ b)
      simp [spanLen, hc, h3]
    | false =>
      have h2 : spanLen p (c :: r) = (0, c :: r) := by simp [spanLen, hc]
      rw [h2]
      show spanLen p (c :: (r ++ b)) = ((0, c :: r).1, (0, c :: r).2 ++ b)
      simp [spanLen, hc]

theorem spanLen_append_nil (p : Char → Bool) (a b : List Char)
    (h : (spanLen p a).2 = []) :
    spanLen p (a ++ b) = ((spanLen p a).1 + (spanLen p b).1, (spanLen p b).2) := by
  induction a with
  | nil => simp [spanLen]
  | cons c r ih =>
    rcases hps : spanLen p r with ⟨n, rest⟩
    cases hc : p c with
    | true =>
      have h2 : spanLen p (c :: r) = (n + 1, rest) := by simp [spanLen, hc, hps]
      rw [h2] at h
      simp only at h
      have h3 := ih (by rw [hps]; exact h)
      rw [hps] at h3
      simp only at h3
      rw [h2]
      have h4 : spanLen p (c :: (r ++ b)) = (n + (spanLen p b).1 + 1, (spanLen p b).2) := by
        simp [spanLen, hc, h3]
      show spanLen p (c :: (r ++ b)) = ((n + 1, rest).1 + (spanLen p b).1, (spanLen p b).2)
      rw [h4]
      simp only [Prod.mk.injEq]
      exact ⟨by omega, trivial⟩
    | false =>
      have h2 : spanLen p (c :: r) = (0, c :: r) := by simp [spanLen, hc]
      rw [h2] at h
      simp at h

theorem spanLen_head_false (p : Char → Bool) (l : List Char) (c : Char)
    (r : List Char) (h : (spanLen p l).2 = c :: r) : p c = false := by
  induction l with
  | nil => simp [spanLen] at h
  | cons x t ih =>
    cases hx : p x with
    | true =>
      simp only [spanLen, hx, if_true] at h
      rcases ht : spanLen p t with ⟨n, rest⟩
      rw [ht] at h
      simp only at h
      exact ih (by rw [ht]; exact h)
    | false =>
      simp only [spanLen, hx, Bool.false_eq_true, if_false] at h
      injection h with h1 _
      rw [← h1]; exact hx

theorem spanLen_zero_head (p : Char → Bool) (c : Char) (r : List Char)
    (h : p c = false) : spanLen p (c :: r) = (0, c :: r) := by
  simp [spanLen, h]

theorem dropLit_some_append (cs a b r : List Char)
    (h : dropLit cs a = some r) : dropLit cs (a ++ b) = some (r ++ b) := by
  induction cs generalizing a r with
  | nil =>
    simp only [dropLit, Option.some.injEq] at h
    simp [dropLit, h]
  | cons c cs ih =>
    cases a with
    | nil => simp [dropLit] at h
    | cons x a =>
      simp only [dropLit] at h
      by_cases hx : x = c
      · rw [if_pos hx] at h
        show dropLit (c :: cs) (x :: (a ++ b)) = some (r ++ b)
        simp only [dropLit, if_pos hx]
        exact ih a r h
      · rw [if_neg hx] at h; cases h

theorem dropLit_none_append (cs a b : List Char) (h : dropLit cs a = none) :
    dropLit cs (a ++ b) = none
    ∨ ∃ cs2, cs = a ++ cs2 ∧ cs2 ≠ [] ∧ dropLit cs (a ++ b) = dropLit cs2 b := by
  induction cs generalizing a with
  | nil => simp [dropLit] at h
  | cons c cs ih =>
    cases a with
    | nil =>
      right
      exact ⟨c :: cs, rfl, by simp, rfl⟩
    | cons x a =>
      simp only [dropLit] at h
      by_cases hx : x = c
      · rw [if_pos hx] at h
        rcases ih a h with h2 | ⟨cs2, hcs2, hne, heq⟩
        · left
          show dropLit (c :: cs) (x :: (a ++ b)) = none
          simp only [dropLit, if_pos hx]
          exact h2
        · right
          refine ⟨cs2, by rw [hcs2, List.cons_append, hx], hne, ?_⟩
          show dropLit (c :: cs) (x :: (a ++ b)) = dropLit cs2 b
          simp only [dropLit, if_pos hx]
          exact heq
      · left
        show dropLit (c :: cs) (x :: (a ++ b)) = none
        simp only [dropLit, if_neg hx]

theorem dropLit_some_len (cs a r : List Char) (h : dropLit cs a = some r) :
    a.length = cs.length + r.length := by
  induction cs generalizing a with
  | nil =>
    simp only [dropLit, Option.some.injEq] at h
    simp [h]
  | cons c cs ih =>
    cases a with
    | nil => simp [dropLit] at h
    | cons x a =>
      simp only [dropLit] at h
      by_cases hx : x = c
      · rw [if_pos hx] at h
        have := ih a h
        simp only [List.length_cons]
        omega
      · rw [if_neg hx] at h; cases h

theorem tryAlts_some_mem (chs : List (List Char)) (a r : List Char) (k : Nat)
    (h : tryAlts chs a = some (k, r)) :
    ∃ cs ∈ chs, dropLit cs a = some r ∧ k = cs.length := by
  induction chs with
  | nil => simp [tryAlts] at h
  | cons cs rest ih =>
    simp only [tryAlts] at h
    cases hd : dropLit cs a with
    | some r2 =>
      rw [hd] at h
      simp only [Option.some.injEq, Prod.mk.injEq] at h
      exact ⟨cs, List.mem_cons_self cs rest, by rw [hd, h.2], h.1.symm⟩
    | none =>
      rw [hd] at h
      rcases ih h with ⟨cs2, hmem, hd2, hk⟩
      exact ⟨cs2, List.mem_cons_of_mem cs hmem, hd2, hk⟩

theorem tryAlts_some_append (chs : List (List Char)) (n : Nat)
    (hlen : ∀ cs ∈ chs, cs.length = n) (a b r : List Char) (k : Nat)
    (h : tryAlts chs a = some (k, r)) (hal : n ≤ a.length) :
    tryAlts chs (a ++ b) = some (k, r ++ b) := by
  induction chs with
  | nil => simp [tryAlts] at h
  | cons cs rest ih =>
    simp only [tryAlts] at h ⊢
    cases hd : dropLit cs a with
    | some r2 =>
      rw [hd] at h
      simp only [Option.some.injEq, Prod.mk.injEq] at h
      rw [dropLit_some_append cs a b r2 hd]
      simp [h.1, h.2]
    | none =>
      rw [hd] at h
      rcases dropLit_none_append cs a b hd with h2 | ⟨cs2, hcs2, hne, _⟩
      · rw [h2]
        exact ih (fun u hu => hlen u (List.mem_cons_of_mem cs hu)) h
      · exfalso
        have hlc : cs.length = n := hlen cs (List.mem_cons_self cs rest)
        have : cs.length = a.length + cs2.length := by rw [hcs2]; simp
        have hpos : 0 < cs2.length := List.length_pos.mpr hne
        omega

theorem tryAlts_none_mem (chs : List (List Char)) (l : List Char)
    (h : tryAlts chs l = none) : ∀ cs ∈ chs, dropLit cs l = none := by
  induction chs with
  | nil => intro cs hcs; simp at hcs
  | cons c rest ih =>
    intro cs hcs
    simp only [tryAlts] at h
    cases hd : dropLit c l with
    | some r => rw [hd] at h; cases h
    | none =>
      rw [hd] at h
      rcases List.mem_cons.mp hcs with hcs | hcs
      · exact hcs ▸ hd
      · exact ih h cs hcs

theorem tryAlts_none_of_all (chs : List (List Char)) (l : List Char)
    (h : ∀ cs ∈ chs, dropLit cs l = none) : tryAlts chs l = none := by
  induction chs with
  | nil => rfl
  | cons c rest ih =>
    simp only [tryAlts]
    rw [h c (List.mem_cons_self c rest)]
    exact ih (fun cs hcs => h cs (List.mem_cons_of_mem c hcs))

theorem spanLen_fst_zero (p : Char → Bool) (l : List Char)
    (h : (spanLen p l).1 = 0) : (spanLen p l).2 = l := by
  cases l with
  | nil => rfl
  | cons c r =>
    cases hc : p c with
    | true =>
      rcases hps : spanLen p r with ⟨n, rest⟩
      have : spanLen p (c :: r) = (n + 1, rest) := by simp [spanLen, hc, hps]
      rw [this] at h
      simp at h
    | false => simp [spanLen, hc]

theorem dropLit_append_sp (L r wr : List Char) (hL : ∀ d ∈ L, d ≠ ' ')
    (h : dropLit L r = none) : dropLit L (r ++ ' ' :: wr) = none := by
  rcases dropLit_none_append L r (' ' :: wr) h with h2 | ⟨cs2, hcs2, hne, heq⟩
  · exact h2
  · cases cs2 with
    | nil => exact absurd rfl hne
    | cons d cs2 =>
      have hd : d ∈ L := by
        rw [hcs2]; exact List.mem_append_right r (List.mem_cons_self d cs2)
      rw [heq]
      simp only [dropLit]
      rw [if_neg (fun hc => hL d hd hc.symm)]

/-! One-step unfolding equations for the forward matcher. -/

theorem matchFwd_wsP_cons (ts : List FTok) (l : List Char) :
    matchFwd (FTok.wsP :: ts) l =
      if (spanLen isSpc l).1 = 0 then none
      else (matchFwd ts (spanLen isSpc l).2).map (· + (spanLen isSpc l).1) := by
  rcases hps : spanLen isSpc l with ⟨n, r⟩
  simp [matchFwd, hps]

theorem matchFwd_wsS_cons (ts : List FTok) (l : List Char) :
    matchFwd (FTok.wsS :: ts) l =
      (matchFwd ts (spanLen isSpc l).2).map (· + (spanLen isSpc l).1) := by
  rcases hps : spanLen isSpc l with ⟨n, r⟩
  simp [matchFwd, hps]

theorem matchFwd_digP_cons (ts : List FTok) (l : List Char) :
    matchFwd (FTok.digP :: ts) l =
      if (spanLen isDig l).1 = 0 then none
      else (matchFwd ts (spanLen isDig l).2).map (· + (spanLen isDig l).1) := by
  rcases hps : spanLen isDig l with ⟨n, r⟩
  simp [matchFwd, hps]

theorem matchFwd_lit_none (cs : List Char) (ts : List FTok) (l : List Char)
    (h : dropLit cs l = none) : matchFwd (FTok.lit cs :: ts) l = none := by
  simp [matchFwd, h]

theorem matchFwd_lit_some (cs : List Char) (ts : List FTok) (l rest : List Char)
    (h : dropLit cs l = some rest) :
    matchFwd (FTok.lit cs :: ts) l = (matchFwd ts rest).map (· + cs.length) := by
  simp [matchFwd, h]

theorem matchFwd_alts_none (chs : List (List Char)) (ts : List FTok) (l : List Char)
    (h : tryAlts chs l = none) : matchFwd (FTok.alts chs :: ts) l = none := by
  simp [matchFwd, h]

theorem matchFwd_alts_some (chs : List (List Char)) (ts : List FTok)
    (l rest : List Char) (k : Nat) (h : tryAlts chs l = some (k, rest)) :
    matchFwd (FTok.alts chs :: ts) l = (matchFwd ts rest).map (· + k) := by
  simp [matchFwd, h]

theorem map_add_eq_none {o : Option Nat} {n : Nat}
    (h : o.map (· + n) = none) : o = none := by
  cases o with
  | none => rfl
  | some k => simp [Option.map] at h

/-! The canonical suffix does not complete a partial match of any of the
four unanchored season patterns: tail-by-tail analysis. -/

theorem matchFwd_digP_append (r : List Char)
    (h : matchFwd [FTok.digP] r = none) :
    matchFwd [FTok.digP] (r ++ tvSuffix) = none := by
  rw [matchFwd_digP_cons] at h
  have hn : (spanLen isDig r).1 = 0 := by
    by_contra hn
    rw [if_neg hn] at h
    simp [matchFwd] at h
  have hr2 := spanLen_fst_zero isDig r hn
  cases r with
  | nil => rfl
  | cons c t =>
    have hc : isDig c = false := spanLen_head_false isDig (c :: t) c t hr2
    rw [matchFwd_digP_cons]
    have : spanLen isDig ((c :: t) ++ tvSuffix) = (0, (c :: t) ++ tvSuffix) := by
      rw [List.cons_append]
      exact spanLen_zero_head isDig c (t ++ tvSuffix) hc
    rw [this, if_pos rfl]

theorem matchFwd_wsS_digP_append (r : List Char)
    (h : matchFwd [FTok.wsS, FTok.digP] r = none) :
    matchFwd [FTok.wsS, FTok.digP] (r ++ tvSuffix) = none := by
  rw [matchFwd_wsS_cons] at h
  have htail : matchFwd [FTok.digP] (spanLen isSpc r).2 = none := map_add_eq_none h
  rw [matchFwd_wsS_cons]
  by_cases hr3 : (spanLen isSpc r).2 = []
  · have happ := spanLen_append_nil isSpc r tvSuffix hr3
    rw [happ]
    simp only
    have : matchFwd [FTok.digP] (spanLen isSpc tvSuffix).2 = none := by rfl
    rw [this]
    rfl
  · have happ := spanLen_append_pos isSpc r tvSuffix hr3
    rw [happ]
    simp only
    rw [matchFwd_digP_append _ htail]
    rfl

theorem matchFwd_lit_wsS_digP_append (L r : List Char) (hL : ∀ d ∈ L, d ≠ ' ')
    (h : matchFwd [FTok.lit L, FTok.wsS, FTok.digP] r = none) :
    matchFwd [FTok.lit L, FTok.wsS, FTok.digP] (r ++ tvSuffix) = none := by
  cases hd : dropLit L r with
  | none =>
    exact matchFwd_lit_none L _ _ (dropLit_append_sp L r ['t','v'] hL hd)
  | some r2 =>
    rw [matchFwd_lit_some L _ r r2 hd] at h
    have htail : matchFwd [FTok.wsS, FTok.digP] r2 = none := map_add_eq_none h
    rw [matchFwd_lit_some L _ _ (r2 ++ tvSuffix)
      (dropLit_some_append L r tvSuffix r2 hd)]
    rw [matchFwd_wsS_digP_append r2 htail]
    rfl

theorem matchFwd_lit_digP_append (L r : List Char) (hL : ∀ d ∈ L, d ≠ ' ')
    (h : matchFwd [FTok.lit L, FTok.digP] r = none) :
    matchFwd [FTok.lit L, FTok.digP] (r ++ tvSuffix) = none := by
  cases hd : dropLit L r with
  | none =>
    exact matchFwd_lit_none L _ _ (dropLit_append_sp L r ['t','v'] hL hd)
  | some r2 =>
    rw [matchFwd_lit_some L _ r r2 hd] at h
    have htail : matchFwd [FTok.digP] r2 = none := map_add_eq_none h
    rw [matchFwd_lit_some L _ _ (r2 ++ tvSuffix)
      (dropLit_some_append L r tvSuffix r2 hd)]
    rw [matchFwd_digP_append r2 htail]
    rfl

theorem dropLit_append_tv (L r : List Char) (hL : ∀ d ∈ L, d ≠ ' ')
    (h : dropLit L r = none) : dropLit L (r ++ tvSuffix) = none :=
  dropLit_append_sp L r ['t','v'] hL h

theorem matchFwd_wsP_lit_append (L r : List Char) (hL : ∀ d ∈ L, d ≠ ' ')
    (hLtv : dropLit L ['t','v'] = none)
    (h : matchFwd [FTok.wsP, FTok.lit L] r = none) :
    matchFwd [FTok.wsP, FTok.lit L] (r ++ tvSuffix) = none := by
  rw [matchFwd_wsP_cons] at h
  rw [matchFwd_wsP_cons]
  by_cases hn : (spanLen isSpc r).1 = 0
  · have hr2 := spanLen_fst_zero isSpc r hn
    cases r with
    | nil =>
      have happ : spanLen isSpc ([] ++ tvSuffix) = (1, ['t','v']) := by rfl
      rw [happ, if_neg (by simp)]
      show (matchFwd [FTok.lit L] ['t','v']).map (· + 1) = none
      rw [matchFwd_lit_none L [] ['t','v'] hLtv]
      rfl
    | cons c t =>
      have hc : isSpc c = false := spanLen_head_false isSpc (c :: t) c t hr2
      have happ : spanLen isSpc ((c :: t) ++ tvSuffix) = (0, (c :: t) ++ tvSuffix) := by
        rw [List.cons_append]
        exact spanLen_zero_head isSpc c (t ++ tvSuffix) hc
      rw [happ, if_pos rfl]
  · rw [if_neg hn] at h
    have htail : matchFwd [FTok.lit L] (spanLen isSpc r).2 = none := map_add_eq_none h
    by_cases hrest : (spanLen isSpc r).2 = []
    · have happ : spanLen isSpc (r ++ tvSuffix)
          = ((spanLen isSpc r).1 + 1, ['t','v']) := by
        rw [spanLen_append_nil isSpc r tvSuffix hrest]; rfl
      rw [happ, if_neg (by simp)]
      show (matchFwd [FTok.lit L] ['t','v']).map (· + ((spanLen isSpc r).1 + 1)) = none
      rw [matchFwd_lit_none L [] ['t','v'] hLtv]
      rfl
    · have happ := spanLen_append_pos isSpc r tvSuffix hrest
      rw [happ, if_neg (by simpa using hn)]
      show (matchFwd [FTok.lit L] ((spanLen isSpc r).2 ++ tvSuffix)).map
        (· + (spanLen isSpc r).1) = none
      cases hd : dropLit L (spanLen isSpc r).2 with
      | none =>
        rw [matchFwd_lit_none L [] _ (dropLit_append_tv L _ hL hd)]
        rfl
      | some r2 =>
        rw [matchFwd_lit_some L [] _ r2 hd] at htail
        simp [matchFwd, Option.map] at htail

theorem matchFwd_alts_wsP_lit_append (chs : List (List Char)) (L r : List Char)
    (hchs2 : ∀ cs ∈ chs, cs.length = 2)
    (hchsp : ∀ cs ∈ chs, ∀ d ∈ cs, d ≠ ' ')
    (hL : ∀ d ∈ L, d ≠ ' ') (hLtv : dropLit L ['t','v'] = none)
    (h : matchFwd [FTok.alts chs, FTok.wsP, FTok.lit L] r = none) :
    matchFwd [FTok.alts chs, FTok.wsP, FTok.lit L] (r ++ tvSuffix) = none := by
  cases ha : tryAlts chs r with
  | none =>
    apply matchFwd_alts_none
    apply tryAlts_none_of_all
    intro cs hcs
    exact dropLit_append_tv cs r (hchsp cs hcs)
      (tryAlts_none_mem chs r ha cs hcs)
  | some kr =>
    rcases kr with ⟨k, r3⟩
    rw [matchFwd_alts_some chs _ r r3 k ha] at h
    have htail : matchFwd [FTok.wsP, FTok.lit L] r3 = none := map_add_eq_none h
    have hal : 2 ≤ r.length := by
      rcases tryAlts_some_mem chs r r3 k ha with ⟨cs, hmem, hdl, hk⟩
      have := dropLit_some_len cs r r3 hdl
      have := hchs2 cs hmem
      omega
    rw [matchFwd_alts_some chs _ _ (r3 ++ tvSuffix) k
      (tryAlts_some_append chs 2 hchs2 r tvSuffix r3 k ha hal)]
    rw [matchFwd_wsP_lit_append L r3 hL hLtv htail]
    rfl

theorem matchFwd_digP_alts_wsP_lit_append (chs : List (List Char)) (L r : List Char)
    (hchs2 : ∀ cs ∈ chs, cs.length = 2)
    (hchsp : ∀ cs ∈ chs, ∀ d ∈ cs, d ≠ ' ')
    (hL : ∀ d ∈ L, d ≠ ' ') (hLtv : dropLit L ['t','v'] = none)
    (h : matchFwd [FTok.digP, FTok.alts chs, FTok.wsP, FTok.lit L] r = none) :
    matchFwd [FTok.digP, FTok.alts chs, FTok.wsP, FTok.lit L] (r ++ tvSuffix) = none := by
  rw [matchFwd_digP_cons] at h
  rw [matchFwd_digP_cons]
  by_cases hn : (spanLen isDig r).1 = 0
  · have hr2 := spanLen_fst_zero isDig r hn
    cases r with
    | nil =>
      have : spanLen isDig ([] ++ tvSuffix) = (0, tvSuffix) := by rfl
      rw [this, if_pos rfl]
    | cons c t =>
      have hc : isDig c = false := spanLen_head_false isDig (c :: t) c t hr2
      have : spanLen isDig ((c :: t) ++ tvSuffix) = (0, (c :: t) ++ tvSuffix) := by
        rw [List.cons_append]
        exact spanLen_zero_head isDig c (t ++ tvSuffix) hc
      rw [this, if_pos rfl]
  · rw [if_neg hn] at h
    have htail : matchFwd [FTok.alts chs, FTok.wsP, FTok.lit L] (spanLen isDig r).2 = none :=
      map_add_eq_none h
    by_cases hrest : (spanLen isDig r).2 = []
    · have happ := spanLen_append_nil isDig r tvSuffix hrest
      rw [happ]
      simp only
      have h1 : spanLen isDig tvSuffix = (0, tvSuffix) := by rfl
      rw [h1]
      simp only [Nat.add_zero]
      rw [if_neg hn]
      have h2 := matchFwd_alts_wsP_lit_append chs L [] hchs2 hchsp hL hLtv
        (by rw [hrest] at htail; exact htail)
      rw [List.nil_append] at h2
      rw [h2]
      rfl
    · have happ := spanLen_append_pos isDig r tvSuffix hrest
      rw [happ]
      simp only
      rw [if_neg hn]
      rw [matchFwd_alts_wsP_lit_append chs L _ hchs2 hchsp hL hLtv htail]
      rfl

theorem matchFwd_wsP_head_append (rest : List FTok) (t : List Char)
    (hw : matchFwd rest ['t','v'] = none)
    (hrest : ∀ r, matchFwd rest r = none → matchFwd rest (r ++ tvSuffix) = none)
    (h : matchFwd (FTok.wsP :: rest) t = none) :
    matchFwd (FTok.wsP :: rest) (t ++ tvSuffix) = none := by
  rw [matchFwd_wsP_cons] at h
  rw [matchFwd_wsP_cons]
  by_cases hn : (spanLen isSpc t).1 = 0
  · have hr2 := spanLen_fst_zero isSpc t hn
    cases t with
    | nil =>
      have : spanLen isSpc ([] ++ tvSuffix) = (1, ['t','v']) := by rfl
      rw [this]
      simp only [Nat.one_ne_zero, if_false]
      rw [hw]
      rfl
    | cons c t' =>
      have hc : isSpc c = false := spanLen_head_false isSpc (c :: t') c t' hr2
      have : spanLen isSpc ((c :: t') ++ tvSuffix) = (0, (c :: t') ++ tvSuffix) := by
        rw [List.cons_append]
        exact spanLen_zero_head isSpc c (t' ++ tvSuffix) hc
      rw [this, if_pos rfl]
  · rw [if_neg hn] at h
    have htail : matchFwd rest (spanLen isSpc t).2 = none := map_add_eq_none h
    by_cases hrest2 : (spanLen isSpc t).2 = []
    · have happ := spanLen_append_nil isSpc t tvSuffix hrest2
      rw [happ]
      simp only
      have h1 : spanLen isSpc tvSuffix = (1, ['t','v']) := by rfl
      rw [h1]
      simp only
      rw [if_neg (by omega)]
      rw [hw]
      rfl
    · have happ := spanLen_append_pos isSpc t tvSuffix hrest2
      rw [happ]
      simp only
      rw [if_neg hn]
      rw [hrest _ htail]
      rfl

theorem mstar_saison (t : List Char)
    (h : matchFwd saisonToks t = none) :
    matchFwd saisonToks (t ++ tvSuffix) = none := by
  unfold saisonToks at h ⊢
  exact matchFwd_wsP_head_append _ t (by decide)
    (fun r hr => matchFwd_lit_wsS_digP_append _ r (by decide) hr) h

theorem mstar_season (t : List Char)
    (h : matchFwd seasonToks t = none) :
    matchFwd seasonToks (t ++ tvSuffix) = none := by
  unfold seasonToks at h ⊢
  exact matchFwd_wsP_head_append _ t (by decide)
    (fun r hr => matchFwd_lit_wsS_digP_append _ r (by decide) hr) h

theorem mstar_sNum (t : List Char)
    (h : matchFwd sNumToks t = none) :
    matchFwd sNumToks (t ++ tvSuffix) = none := by
  unfold sNumToks at h ⊢
  exact matchFwd_wsP_head_append _ t (by decide)
    (fun r hr => matchFwd_lit_digP_append _ r (by decide) hr) h

theorem mstar_ordinal (t : List Char)
    (h : matchFwd ordinalToks t = none) :
    matchFwd ordinalToks (t ++ tvSuffix) = none := by
  unfold ordinalToks at h ⊢
  exact matchFwd_wsP_head_append _ t (by decide)
    (fun r hr => matchFwd_digP_alts_wsP_lit_append _ _ r (by decide) (by decide)
      (by decide) (by decide) hr) h

/-! Identity of a substitution pass means no pattern occurrence at all, and
conversely; consequences for an appended suffix. -/

theorem subAllF_length_le (m : List Char → Option Nat) :
    ∀ (f : Nat) (l : List Char), (subAllF m f l).length ≤ l.length := by
  intro f
  induction f with
  | zero => intro l; exact Nat.le_refl _
  | succ f ih =>
    intro l
    cases l with
    | nil => simp [subAllF]
    | cons c cs =>
      simp only [subAllF]
      cases hm : m (c :: cs) with
      | none =>
        simp only [List.length_cons]
        exact Nat.succ_le_succ (ih cs)
      | some k =>
        cases k with
        | zero =>
          simp only [List.length_cons]
          exact Nat.succ_le_succ (ih cs)
        | succ k =>
          calc (subAllF m f (cs.drop k)).length
              ≤ (cs.drop k).length := ih _
            _ ≤ cs.length := by simp [List.length_drop]
            _ ≤ (c :: cs).length := by simp

theorem subAllF_eq_of_length (m : List Char → Option Nat) :
    ∀ (f : Nat) (l : List Char),
      (subAllF m f l).length = l.length → subAllF m f l = l := by
  intro f
  induction f with
  | zero => intro l _; rfl
  | succ f ih =>
    intro l h
    cases l with
    | nil => rfl
    | cons c cs =>
      simp only [subAllF] at h ⊢
      cases hm : m (c :: cs) with
      | none =>
        rw [hm] at h
        simp only [List.length_cons, Nat.succ.injEq] at h
        rw [ih cs h]
      | some k =>
        cases k with
        | zero =>
          rw [hm] at h
          simp only [List.length_cons, Nat.succ.injEq] at h
          rw [ih cs h]
        | succ k =>
          rw [hm] at h
          exfalso
          have h1 := subAllF_length_le m f (cs.drop k)
          simp only [List.length_drop, List.length_cons] at h h1
          omega

theorem dropWhile_len_le (p : Char → Bool) (l : List Char) :
    (l.dropWhile p).length ≤ l.length := by
  induction l with
  | nil => simp
  | cons c t ih =>
    rw [List.dropWhile_cons]
    by_cases hc : p c
    · simp only [hc, if_true]
      exact Nat.le_succ_of_le ih
    · simp [hc]

theorem matchRev_cons_lt (tk : RTok) (ts : List RTok) (r r2 : List Char)
    (h : matchRev (tk :: ts) r = some r2) : r2.length < r.length := by
  cases r with
  | nil => cases tk <;> simp [matchRev] at h
  | cons x rest =>
    have hr2 : r2.length ≤ rest.length := by
      cases tk with
      | rlit c =>
        simp only [matchRev] at h
        by_cases hx : x = c
        · rw [if_pos hx] at h
          exact (matchRev_suffix ts rest r2 h).length_le
        · rw [if_neg hx] at h; cases h
      | rdig =>
        simp only [matchRev] at h
        by_cases hx : isDig x
        · rw [if_pos hx] at h
          exact (matchRev_suffix ts rest r2 h).length_le
        · rw [if_neg hx] at h; cases h
      | rwsP =>
        simp only [matchRev] at h
        by_cases hx : isSpc x
        · rw [if_pos hx] at h
          calc r2.length ≤ (rest.dropWhile isSpc).length :=
                (matchRev_suffix ts _ r2 h).length_le
            _ ≤ rest.length := dropWhile_len_le _ _
        · rw [if_neg hx] at h; cases h
    simp only [List.length_cons]
    omega

theorem dropEnd_length_le (ts : List RTok) (l : List Char) :
    (dropEnd ts l).length ≤ l.length := by
  unfold dropEnd
  cases hm : matchRev ts l.reverse with
  | none => exact Nat.le_refl _
  | some r =>
    have := (matchRev_suffix ts l.reverse r hm).length_le
    simp only [List.length_reverse] at this ⊢
    exact this

theorem dropEnd_eq_of_length (tk : RTok) (ts : List RTok) (l : List Char)
    (h : (dropEnd (tk :: ts) l).length = l.length) : dropEnd (tk :: ts) l = l := by
  unfold dropEnd at h ⊢
  cases hm : matchRev (tk :: ts) l.reverse with
  | none => rfl
  | some r =>
    rw [hm] at h
    have := matchRev_cons_lt tk ts l.reverse r hm
    simp only [List.length_reverse] at h this
    omega

theorem matchFwd_wsP_pos (ts : List FTok) (l : List Char) (k : Nat)
    (h : matchFwd (FTok.wsP :: ts) l = some k) : 1 ≤ k := by
  rw [matchFwd_wsP_cons] at h
  by_cases hn : (spanLen isSpc l).1 = 0
  · rw [if_pos hn] at h; cases h
  · rw [if_neg hn] at h
    cases hm : matchFwd ts (spanLen isSpc l).2 with
    | none => rw [hm] at h; cases h
    | some k2 =>
      rw [hm] at h
      have h2 : k2 + (spanLen isSpc l).1 = k := by simpa using h
      omega

theorem nomatch_of_subAll_eq (m : List Char → Option Nat)
    (hpos : ∀ l k, m l = some k → 1 ≤ k) :
    ∀ l, subAll m l = l → ∀ t, t <:+ l → t ≠ [] → m t = none := by
  intro l
  induction l with
  | nil =>
    intro _ t ht hne
    rw [List.suffix_nil.mp ht] at hne
    exact absurd rfl hne
  | cons c cs ih =>
    intro h t ht hne
    cases hm : m (c :: cs) with
    | some k =>
      cases k with
      | zero => exact absurd (hpos _ 0 hm) (by omega)
      | succ k =>
        exfalso
        have h3 : subAllF m cs.length (cs.drop k) = c :: cs := by
          have h2 := h
          unfold subAll at h2
          simp only [List.length_cons, subAllF, hm] at h2
          exact h2
        have h1 := subAllF_length_le m cs.length (cs.drop k)
        have h4 : (subAllF m cs.length (cs.drop k)).length = (c :: cs).length := by
          rw [h3]
        simp only [List.length_drop, List.length_cons] at h1 h4
        omega
    | none =>
      have htl : subAll m cs = cs := by
        have h2 := h
        unfold subAll at h2
        simp only [List.length_cons, subAllF, hm, List.cons.injEq, true_and] at h2
        unfold subAll
        exact h2
      rcases List.suffix_cons_iff.mp ht with ht2 | ht2
      · rw [ht2]; exact hm
      · exact ih htl t ht2 hne

theorem subAll_eq_of_nomatch (m : List Char → Option Nat) :
    ∀ l, (∀ t, t <:+ l → t ≠ [] → m t = none) → subAll m l = l := by
  intro l
  induction l with
  | nil => intro _; rfl
  | cons c cs ih =>
    intro h
    have hm : m (c :: cs) = none := h (c :: cs) (List.suffix_refl _) (by simp)
    have ihh := ih (fun t ht hne => h t (ht.trans (List.suffix_cons c cs)) hne)
    unfold subAll at ihh ⊢
    simp only [List.length_cons, subAllF, hm, List.cons.injEq, true_and]
    exact ihh

theorem subAll_append_tv (m : List Char → Option Nat) (A : List Char)
    (h1 : ∀ t, t <:+ A → t ≠ [] → m (t ++ tvSuffix) = none)
    (h2 : ∀ t, t <:+ tvSuffix → t ≠ [] → m t = none) :
    subAll m (A ++ tvSuffix) = A ++ tvSuffix := by
  induction A with
  | nil =>
    rw [List.nil_append]
    exact subAll_eq_of_nomatch m tvSuffix h2
  | cons c cs ih =>
    have hm : m ((c :: cs) ++ tvSuffix) = none :=
      h1 (c :: cs) (List.suffix_refl _) (by simp)
    have hm2 : m (c :: (cs ++ tvSuffix)) = none := by
      rw [← List.cons_append]; exact hm
    have ihh := ih (fun t ht hne => h1 t (ht.trans (List.suffix_cons c cs)) hne)
    show subAll m ((c :: cs) ++ tvSuffix) = (c :: cs) ++ tvSuffix
    rw [List.cons_append]
    unfold subAll at ihh ⊢
    simp only [List.length_cons, subAllF, hm2, List.cons.injEq, true_and]
    exact ihh

/-! The cascade as a fold over its stage list; a cascade that returns its
input unchanged passes through every stage unchanged. -/

theorem subAll_len_le (m : List Char → Option Nat) (l : List Char) :
    (subAll m l).length ≤ l.length := subAllF_length_le m l.length l

theorem subAll_eq_of_len (m : List Char → Option Nat) (l : List Char)
    (h : (subAll m l).length = l.length) : subAll m l = l :=
  subAllF_eq_of_length m l.length l h

theorem dropEnd_eq_of_len (ts : List RTok) (l : List Char) (hts : ts ≠ [])
    (h : (dropEnd ts l).length = l.length) : dropEnd ts l = l := by
  cases ts with
  | nil => exact absurd rfl hts
  | cons tk ts => exact dropEnd_eq_of_length tk ts l h

theorem stripPats_foldl (l : List Char) :
    stripPats l = stageList.foldl (fun x f => f x) l := by
  simp only [stripPats, stageList, List.foldl_cons, List.foldl_nil]

theorem foldl_len_le :
    ∀ (fs : List (List Char → List Char)),
      (∀ f ∈ fs, ∀ l : List Char, (f l).length ≤ l.length) →
      ∀ X : List Char, (fs.foldl (fun x f => f x) X).length ≤ X.length := by
  intro fs
  induction fs with
  | nil => intro _ X; simp
  | cons f fs ih =>
    intro hp X
    simp only [List.foldl_cons]
    calc (fs.foldl (fun x f => f x) (f X)).length
        ≤ (f X).length := ih (fun g hg => hp g (List.mem_cons_of_mem f hg)) (f X)
      _ ≤ X.length := hp f (List.mem_cons_self f fs) X

theorem stages_id :
    ∀ (fs : List (List Char → List Char)),
      (∀ f ∈ fs, ∀ l : List Char,
        (f l).length ≤ l.length ∧ ((f l).length = l.length → f l = l)) →
      ∀ X : List Char, fs.foldl (fun x f => f x) X = X → ∀ f ∈ fs, f X = X := by
  intro fs
  induction fs with
  | nil => intro _ X _ f hf; simp at hf
  | cons f fs ih =>
    intro hp X h g hg
    simp only [List.foldl_cons] at h
    have hfl : (f X).length = X.length := by
      have h1 := foldl_len_le fs
        (fun u hu l => (hp u (List.mem_cons_of_mem f hu) l).1) (f X)
      have h2 := (hp f (List.mem_cons_self f fs) X).1
      have h3 : (fs.foldl (fun x f => f x) (f X)).length = X.length := by rw [h]
      have h4 : X.length ≤ (f X).length := by rw [← h3]; exact h1
      exact Nat.le_antisymm h2 h4
    have hfX : f X = X := (hp f (List.mem_cons_self f fs) X).2 hfl
    rw [hfX] at h
    rcases List.mem_cons.mp hg with hg1 | hg2
    · rw [hg1]; exact hfX
    · exact ih (fun u hu => hp u (List.mem_cons_of_mem f hu)) X h g hg2

theorem stageList_prop :
    ∀ f ∈ stageList, ∀ l : List Char,
      (f l).length ≤ l.length ∧ ((f l).length = l.length → f l = l) := by
  intro f hf
  simp only [stageList, List.mem_cons, List.not_mem_nil, or_false] at hf
  rcases hf with rfl | rfl | rfl | rfl | rfl | rfl | rfl | rfl | rfl | rfl | rfl | rfl | rfl
    | rfl | rfl | rfl | rfl | rfl <;> intro l
  all_goals first
    | exact ⟨subAll_len_le _ _, subAll_eq_of_len _ _⟩
    | exact ⟨dropEnd_length_le _ _,
        dropEnd_eq_of_len _ _ (List.length_pos.mp (by decide)) ⟩

/-! Removal of a trailing whitespace-free character, and the effect of the
first end-anchored stage on the appended canonical suffix. -/

theorem stripR_len_le (l : List Char) : (stripR l).length ≤ l.length := by
  induction l with
  | nil => simp [stripR]
  | cons c r ih =>
    simp only [stripR]
    by_cases hr : stripR r = []
    · rw [if_pos hr]
      by_cases hc : isSpc c
      · simp [hc]
      · simp [hc]
    · rw [if_neg hr]
      simp only [List.length_cons]
      omega

theorem stripR_concat (Y : List Char) (c : Char) :
    stripR (Y ++ [c]) = if isSpc c then stripR Y else Y ++ [c] := by
  induction Y with
  | nil =>
    show stripR [c] = _
    by_cases hc : isSpc c <;> simp [stripR, hc]
  | cons y Y2 ih =>
    by_cases hc : isSpc c
    · rw [if_pos hc]
      have hYc : stripR (Y2 ++ [c]) = stripR Y2 := by rw [ih, if_pos hc]
      show stripR (y :: (Y2 ++ [c])) = stripR (y :: Y2)
      simp only [stripR, hYc]
    · rw [if_neg hc]
      have hYc : stripR (Y2 ++ [c]) = Y2 ++ [c] := by rw [ih, if_neg hc]
      have hcons : Y2 ++ [c] ≠ [] := by simp
      show stripR (y :: (Y2 ++ [c])) = (y :: Y2) ++ [c]
      simp only [stripR, hYc, if_neg hcons, List.cons_append]

theorem exists_concat_of_ne_nil (X : List Char) (h : X ≠ []) :
    ∃ Y c, X = Y ++ [c] := by
  cases hrev : X.reverse with
  | nil =>
    rw [List.reverse_eq_nil_iff] at hrev
    exact absurd hrev h
  | cons c R =>
    refine ⟨R.reverse, c, ?_⟩
    rw [← List.reverse_reverse X, hrev]
    simp

theorem last_nonspc (X : List Char) (hne : X ≠ []) (hR : stripR X = X) :
    ∃ Y c, X = Y ++ [c] ∧ isSpc c = false := by
  obtain ⟨Y, c, rfl⟩ := exists_concat_of_ne_nil X hne
  by_cases hc : isSpc c
  · exfalso
    rw [stripR_concat, if_pos hc] at hR
    have h1 := stripR_len_le Y
    have h2 : (stripR Y).length = (Y ++ [c]).length := by rw [hR]
    simp only [List.length_append, List.length_singleton] at h2
    omega
  · exact ⟨Y, c, rfl, by simpa using hc⟩

theorem dropEnd_tv_append (X : List Char) (hne : X ≠ []) (hR : stripR X = X) :
    dropEnd (wordEnd ['t','v']) (X ++ tvSuffix) = X := by
  obtain ⟨Y, c, hX, hc⟩ := last_nonspc X hne hR
  have hdw : X.reverse.dropWhile isSpc = X.reverse := by
    rw [hX]
    simp [List.dropWhile_cons, hc]
  have hrev : (X ++ tvSuffix).reverse = 'v' :: 't' :: ' ' :: X.reverse := by
    simp [tvSuffix]
  have hmatch : matchRev (wordEnd ['t','v']) ('v' :: 't' :: ' ' :: X.reverse)
      = some X.reverse := by
    show matchRev [RTok.rlit 'v', RTok.rlit 't', RTok.rwsP]
      ('v' :: 't' :: ' ' :: X.reverse) = some X.reverse
    simp [matchRev, hdw, isSpc]
  unfold dropEnd
  rw [hrev, hmatch]
  simp

/-- The pattern cascade removes an appended canonical tv suffix exactly,
whenever the base string is nonempty, has no trailing whitespace, and is
itself free of the recognized patterns. -/
theorem stripPats_append_tv (X : List Char) (hne : X ≠ []) (hR : stripR X = X)
    (hfree : stripPats X = X) : stripPats (X ++ tvSuffix) = X := by
  have hid : ∀ f ∈ stageList, f X = X :=
    stages_id stageList stageList_prop X (by rw [← stripPats_foldl]; exact hfree)
  have hnm1 : ∀ t, t <:+ X → t ≠ [] → matchFwd saisonToks t = none := by
    refine nomatch_of_subAll_eq _ ?_ X (hid _ (by simp [stageList]))
    intro l k hk
    unfold saisonToks at hk
    exact matchFwd_wsP_pos _ l k hk
  have hnm2 : ∀ t, t <:+ X → t ≠ [] → matchFwd seasonToks t = none := by
    refine nomatch_of_subAll_eq _ ?_ X (hid _ (by simp [stageList]))
    intro l k hk
    unfold seasonToks at hk
    exact matchFwd_wsP_pos _ l k hk
  have hnm3 : ∀ t, t <:+ X → t ≠ [] → matchFwd sNumToks t = none := by
    refine nomatch_of_subAll_eq _ ?_ X (hid _ (by simp [stageList]))
    intro l k hk
    unfold sNumToks at hk
    exact matchFwd_wsP_pos _ l k hk
  have hnm4 : ∀ t, t <:+ X → t ≠ [] → matchFwd ordinalToks t = none := by
    refine nomatch_of_subAll_eq _ ?_ X (hid _ (by simp [stageList]))
    intro l k hk
    unfold ordinalToks at hk
    exact matchFwd_wsP_pos _ l k hk
  have htails1 : ∀ t ∈ tvSuffix.tails, t ≠ [] → matchFwd saisonToks t = none := by decide
  have htails2 : ∀ t ∈ tvSuffix.tails, t ≠ [] → matchFwd seasonToks t = none := by decide
  have htails3 : ∀ t ∈ tvSuffix.tails, t ≠ [] → matchFwd sNumToks t = none := by decide
  have htails4 : ∀ t ∈ tvSuffix.tails, t ≠ [] → matchFwd ordinalToks t = none := by decide
  have ha1 : subAll (matchFwd saisonToks) (X ++ tvSuffix) = X ++ tvSuffix :=
    subAll_append_tv _ X (fun t ht hn => mstar_saison t (hnm1 t ht hn))
      (fun t ht hn => htails1 t ((List.mem_tails _ _).mpr ht) hn)
  have ha2 : subAll (matchFwd seasonToks) (X ++ tvSuffix) = X ++ tvSuffix :=
    subAll_append_tv _ X (fun t ht hn => mstar_season t (hnm2 t ht hn))
      (fun t ht hn => htails2 t ((List.mem_tails _ _).mpr ht) hn)
  have ha3 : subAll (matchFwd sNumToks) (X ++ tvSuffix) = X ++ tvSuffix :=
    subAll_append_tv _ X (fun t ht hn => mstar_sNum t (hnm3 t ht hn))
      (fun t ht hn => htails3 t ((List.mem_tails _ _).mpr ht) hn)
  have ha4 : subAll (matchFwd ordinalToks) (X ++ tvSuffix) = X ++ tvSuffix :=
    subAll_append_tv _ X (fun t ht hn => mstar_ordinal t (hnm4 t ht hn))
      (fun t ht hn => htails4 t ((List.mem_tails _ _).mpr ht) hn)
  have htv : dropEnd (wordEnd ['t','v']) (X ++ tvSuffix) = X :=
    dropEnd_tv_append X hne hR
  have h6 : dropEnd (wordEnd ['(','t','v',')']) X = X := hid _ (by simp [stageList])
  have h7 : dropEnd (wordEnd ['[','t','v',']']) X = X := hid _ (by simp [stageList])
  have h8 : dropEnd (wordEnd ['s','e','r','i','e']) X = X := hid _ (by simp [stageList])
  have h9 : dropEnd (wordEnd ['s','e','r','i','e','s']) X = X := hid _ (by simp [stageList])
  have h10 : dropEnd theSeriesEnd X = X := hid _ (by simp [stageList])
  have h11 : dropEnd (wordEnd ['a','n','i','m','e']) X = X := hid _ (by simp [stageList])
  have h12 : dropEnd (wordEnd ['v','o','s','t','f','r']) X = X := hid _ (by simp [stageList])
  have h13 : dropEnd (wordEnd ['v','f']) X = X := hid _ (by simp [stageList])
  have h14 : dropEnd (wordEnd ['f','r','e','n','c','h']) X = X := hid _ (by simp [stageList])
  have h15 : dropEnd (wordEnd ['m','u','l','t','i']) X = X := hid _ (by simp [stageList])
  have h16 : dropEnd (yearEnd (some ('(', ')'))) X = X := hid _ (by simp [stageList])
  have h17 : dropEnd (yearEnd (some ('[', ']'))) X = X := hid _ (by simp [stageList])
  have h18 : dropEnd (yearEnd none) X = X := hid _ (by simp [stageList])
  show stripPats (X ++ tvSuffix) = X
  rw [stripPats_foldl]
  simp only [stageList, List.foldl_cons, List.foldl_nil]
  rw [ha1, ha2, ha3, ha4, htv, h6, h7, h8, h9, h10, h11, h12, h13, h14, h15,
    h16, h17, h18]

/-! Transport of stripping across lowercasing, and splitting of a full strip
into its two halves. -/

theorem isSpc_lowerChar (c : Char) : isSpc (lowerChar c) = isSpc c := by
  unfold lowerChar
  cases hf : lcMap.find? (fun p => p.1 == c) with
  | none => rfl
  | some p =>
    have hp : p ∈ lcMap := List.mem_of_find?_eq_some hf
    have hpc : p.1 = c := by simpa using List.find?_some hf
    have hboth : ∀ q ∈ lcMap, isSpc q.1 = false ∧ isSpc q.2 = false := by decide
    rw [(hboth p hp).2, ← hpc, (hboth p hp).1]

theorem stripR_lower (l : List Char) : stripR (lower l) = lower (stripR l) := by
  induction l with
  | nil => rfl
  | cons c t ih =>
    show stripR (lowerChar c :: lower t) = lower (stripR (c :: t))
    simp only [stripR, ih]
    by_cases ht : stripR t = []
    · rw [ht]
      simp only [lower, List.map_nil, if_pos rfl]
      rw [isSpc_lowerChar c]
      by_cases hc : isSpc c
      · simp [hc, lower]
      · simp [hc, lower]
    · have hne : lower (stripR t) ≠ [] := by
        intro hc
        exact ht (List.map_eq_nil_iff.mp hc)
      rw [if_neg hne, if_neg ht]
      rfl

theorem dropWhile_len_eq (p : Char → Bool) (l : List Char)
    (h : (l.dropWhile p).length = l.length) : l.dropWhile p = l := by
  cases l with
  | nil => rfl
  | cons c t =>
    rw [List.dropWhile_cons]
    by_cases hc : p c
    · exfalso
      rw [List.dropWhile_cons, if_pos hc] at h
      have := dropWhile_len_le p t
      simp only [List.length_cons] at h
      omega
    · simp [hc]

theorem strip_split (l : List Char) (h : strip l = l) :
    stripL l = l ∧ stripR l = l := by
  have h2 : stripR (l.dropWhile isSpc) = l := by
    have h3 := h
    unfold strip stripL at h3
    exact h3
  have hL : stripL l = l := by
    show l.dropWhile isSpc = l
    apply dropWhile_len_eq
    have hA := dropWhile_len_le isSpc l
    have hB : (stripR (l.dropWhile isSpc)).length ≤ (l.dropWhile isSpc).length :=
      stripR_len_le _
    have hC : (stripR (l.dropWhile isSpc)).length = l.length := by rw [h2]
    omega
  refine ⟨hL, ?_⟩
  unfold strip at h
  rw [hL] at h
  exact h

theorem strip_append_last (q w : List Char) (hq : strip q = q) (hqne : q ≠ [])
    (W : List Char) (d : Char) (hw : w = W ++ [d]) (hd : isSpc d = false) :
    strip (q ++ w) = q ++ w := by
  obtain ⟨hL, hR⟩ := strip_split q hq
  unfold strip
  have hstepL : stripL (q ++ w) = q ++ w := by
    cases q with
    | nil => exact absurd rfl hqne
    | cons c t =>
      have hc : isSpc c = false := by
        have := hL
        unfold stripL at this
        rw [List.dropWhile_cons] at this
        by_cases hcs : isSpc c
        · exfalso
          rw [if_pos hcs] at this
          have := congrArg List.length this
          have h2 := dropWhile_len_le isSpc t
          simp only [List.length_cons] at this
          omega
        · simpa using hcs
      show stripL (c :: (t ++ w)) = c :: (t ++ w)
      unfold stripL
      rw [List.dropWhile_cons, hc]
      simp
  rw [hstepL, hw, ← List.append_assoc, stripR_concat, hd]
  simp

/-- C3 amended: appending a recognized trailing suffix to a query leaves the
normalized query, and hence the cache key for fixed media type, season and
episode, unchanged — provided the base query is trimmed, nonempty and free
of recognized patterns, and either the suffix is a case variant of the
canonical tv suffix (for which the removal is proved outright), or the
pattern cascade strips exactly the appended suffix from the combined query.
Unconditionally the claim is false: when suffixes stack, one pass removes
only the outermost one, as the counterexample above shows. -/
theorem suffix_collapse_amended (q1 w mt : List Char) (s e : Option Int)
    (hqne : q1 ≠ [])
    (hq : strip q1 = q1)
    (hfree : stripPats (lower q1) = lower q1)
    (hw : lower w = tvSuffix
      ∨ (strip (q1 ++ w) = q1 ++ w ∧ stripPats (lower q1 ++ lower w) = lower q1)) :
    normalize_query (q1 ++ w) s = normalize_query q1 s
    ∧ generate_cache_key (q1 ++ w) mt s e = generate_cache_key q1 mt s e := by
  have hkey : strip (q1 ++ w) = q1 ++ w
      ∧ stripPats (lower q1 ++ lower w) = lower q1 := by
    rcases hw with hlw | hboth
    · constructor
      · have hwne : w ≠ [] := by
          intro hc
          rw [hc] at hlw
          simp [lower, tvSuffix] at hlw
        obtain ⟨W, d, hwd⟩ := exists_concat_of_ne_nil w hwne
        have h5 : lower W ++ [lowerChar d] = [' ','t'] ++ ['v'] := by
          have h5a : lower w = [' ','t'] ++ ['v'] := by rw [hlw]; rfl
          rw [hwd] at h5a
          simpa [lower] using h5a
        have hlen : (lower W).length = ([' ','t'] : List Char).length := by
          have := congrArg List.length h5
          simp at this
          simpa using this
        have hdv : lowerChar d = 'v' := by
          have := List.append_inj_right h5 hlen
          injection this
        have hd : isSpc d = false := by
          rw [← isSpc_lowerChar d, hdv]
          rfl
        exact strip_append_last q1 w hq hqne W d hwd hd
      · rw [hlw]
        refine stripPats_append_tv (lower q1) ?_ ?_ hfree
        · intro hc
          exact hqne (List.map_eq_nil_iff.mp hc)
        · rw [stripR_lower, (strip_split q1 hq).2]
    · exact hboth
  obtain ⟨hsuf, hrem⟩ := hkey
  have hne2 : q1 ++ w ≠ [] := fun hc => hqne (List.append_eq_nil.mp hc).1
  have hmain : normalize_query (q1 ++ w) s = normalize_query q1 s := by
    rw [normalize_query, if_neg hne2, hsuf, normalize_query, if_neg hqne, hq,
      show lower (q1 ++ w) = lower q1 ++ lower w from List.map_append _ _ _,
      hrem, hfree]
  exact ⟨hmain, by unfold generate_cache_key; rw [hmain]⟩

/-- Witness for the amended C3 on the spec's own example: the queries
Jujutsu Kaisen TV and Jujutsu Kaisen, media type series, season 1, through
the canonical-suffix branch. -/
theorem suffix_collapse_witness :
    ((['J','u','j','u','t','s','u',' ','K','a','i','s','e','n'] : List Char) ≠ []
      ∧ strip ['J','u','j','u','t','s','u',' ','K','a','i','s','e','n']
        = ['J','u','j','u','t','s','u',' ','K','a','i','s','e','n']
      ∧ stripPats (lower ['J','u','j','u','t','s','u',' ','K','a','i','s','e','n'])
        = lower ['J','u','j','u','t','s','u',' ','K','a','i','s','e','n']
      ∧ lower [' ','T','V'] = tvSuffix)
    ∧ (normalize_query (['J','u','j','u','t','s','u',' ','K','a','i','s','e','n']
          ++ [' ','T','V']) (some 1)
        = normalize_query ['J','u','j','u','t','s','u',' ','K','a','i','s','e','n'] (some 1)
      ∧ generate_cache_key (['J','u','j','u','t','s','u',' ','K','a','i','s','e','n']
          ++ [' ','T','V']) ['s','e','r','i','e','s'] (some 1) none
        = generate_cache_key ['J','u','j','u','t','s','u',' ','K','a','i','s','e','n']
          ['s','e','r','i','e','s'] (some 1) none) :=
  ⟨⟨by decide, by decide, by decide, by decide⟩,
    suffix_collapse_amended _ [' ','T','V'] ['s','e','r','i','e','s'] (some 1) none
      (by decide) (by decide) (by decide) (Or.inl (by decide))⟩

end Ddlarr
